import Mathlib

/-!
SerialCommand: line assembler, tokenizer and dispatcher

A shallow embedding of `src/SerialCommand.cpp` (the SerialCommand library used by
RF24MeshSerial) and proofs of its contract.

Modelling conventions.

* Bytes (`char`) are natural numbers; the NUL byte is `0`.
* Memory (`buffer`, a command name, `delim`) is a `List Nat` of cells; a pointer into
  `buffer` is an index, and the C `NULL` pointer is `none`.
* The header `SerialCommand.h` is not part of the sources, so its three constants are
  fields of `Params`.  `buffer` has `SERIALCOMMAND_BUFFER + 1` cells, which is what the
  accesses `buffer[bufPos]` with `bufPos <= SERIALCOMMAND_BUFFER` in `readSerial` need.
* A handler is application code.  What it can observe of the parser is the sequence of
  results of the `next()` calls it makes, so a handler is an identity together with the
  number of `next()` calls it performs.  Handlers do not re-enter `readSerial`, do not
  re-register handlers and do not write through the token pointers.
* `readSerial` reports, per dispatch cycle, the line it received (the `Received:` print
  of the debug build), the handler call it made and the results of the `next()` calls
  of that handler.
* `tokens`, `lineCycle`, `lineAfter` and `lineRun` are written from the specification;
  `readSerial_refines` shows that the code refines them.
-/

namespace SerialCommand

/-- Compile-time constants of `SerialCommand.h` and the one degree of freedom the C
library leaves in `strtok_r`: whether the saved pointer is `NULL` or points at the
terminating NUL once the string is exhausted. -/
structure Params where
  SERIALCOMMAND_BUFFER : Nat
  SERIALCOMMAND_MAXCOMMANDCOUNT : Nat
  SERIALCOMMAND_MAXCOMMANDLENGTH : Nat
  strtokNullAtEnd : Bool
deriving DecidableEq, Repr

/-- A handler function: its identity and the number of `next()` calls it makes. -/
structure Handler where
  id : Nat
  pulls : Nat
deriving DecidableEq, Repr

/-- One cell of `commandList`: the first `SERIALCOMMAND_MAXCOMMANDLENGTH` bytes of the
`command` array (the only ones `strncpy` writes and `strncmp` reads) and the function
pointer. -/
structure SerialCommandCallback where
  command : List Nat
  function : Handler
deriving DecidableEq, Repr

/-- The members of a `SerialCommand` object. -/
structure State where
  commandList : List SerialCommandCallback
  commandCount : Nat
  defaultHandler : Option Handler
  nullHandler : Option Handler
  delim : List Nat
  term : Nat
  term2 : Nat
  buffer : List Nat
  bufPos : Nat
  last : Option Nat
deriving DecidableEq, Repr

/-- The handler call made by one dispatch cycle. -/
inductive Call where
  | command (index : Nat) (h : Handler)
  | defaultHandler (h : Handler) (arg : List Nat)
  | nullHandler (h : Handler)
deriving DecidableEq, Repr

/-- What one dispatch cycle did: the line in the buffer when the terminator arrived, the
handler call (if any) and the results of the `next()` calls made by that handler. -/
structure Cycle where
  received : List Nat
  call : Option Call
  nexts : List (Option (List Nat))
deriving DecidableEq, Repr

/-! ## C library functions -/

/-- The C string starting at the first cell of `mem`: the bytes before the first NUL. -/
def cstr (mem : List Nat) : List Nat :=
  mem.takeWhile (fun c => c != 0)

/-- The byte `c` occurs in the C string `delim`. -/
def isDelim (delim : List Nat) (c : Nat) : Bool :=
  (cstr delim).contains c

/-- Function `isprint` in the C locale. -/
def isprint (c : Nat) : Bool :=
  decide (32 ≤ c) && decide (c ≤ 126)

/-- Function `strspn(s, delim)`: length of the initial run of delimiter bytes. -/
def strspn (s : List Nat) (delim : List Nat) : Nat :=
  (s.takeWhile (fun c => isDelim delim c)).length

/-- Function `strcspn(s, delim)`: length of the initial run of bytes that are neither a
delimiter nor NUL. -/
def strcspn (s : List Nat) (delim : List Nat) : Nat :=
  (s.takeWhile (fun c => c != 0 && !isDelim delim c)).length

/-- Function `strtok_r(str, delim, &last)` on the memory `mem`.  The result is the
returned pointer, the memory and the saved pointer.  A read past the end of `mem` is
read as NUL. -/
def strtok_r (nullAtEnd : Bool) (mem : List Nat) (str : Option Nat) (delim : List Nat)
    (last : Option Nat) : Option Nat × List Nat × Option Nat :=
  match str.orElse (fun _ => last) with
  | none => (none, mem, last)
  | some s =>
    let tok := s + strspn (mem.drop s) delim
    if mem.getD tok 0 = 0 then
      (none, mem, if nullAtEnd then none else some tok)
    else
      let e := tok + strcspn (mem.drop tok) delim
      if mem.getD e 0 = 0 then
        (some tok, mem, if nullAtEnd then none else some e)
      else
        (some tok, mem.set e 0, some (e + 1))

/-- Function `strncpy(dst, src, n)`: the `n` cells written to `dst`. -/
def strncpy (src : List Nat) (n : Nat) : List Nat :=
  (cstr src).take n ++ List.replicate (n - (cstr src).length) 0

/-- Function `strncmp(a, b, n)`; a read past the end of a list is read as NUL. -/
def strncmp : List Nat → List Nat → Nat → Int
  | _, _, 0 => 0
  | a, b, n + 1 =>
    if a.headD 0 ≠ b.headD 0 then (a.headD 0 : Int) - (b.headD 0 : Int)
    else if a.headD 0 = 0 then 0
    else strncmp a.tail b.tail n

/-! ## The member functions -/

/-- Member `SerialCommand::clearBuffer`. -/
def clearBuffer (s : State) : State :=
  { s with buffer := s.buffer.set 0 0, bufPos := 0 }

/-- The constructor `SerialCommand::SerialCommand`.  `raw` is the uninitialised content
of the `buffer` member. -/
def ctor (P : Params) (raw : List Nat) : State :=
  clearBuffer
    { commandList := List.replicate P.SERIALCOMMAND_MAXCOMMANDCOUNT ⟨[], ⟨0, 0⟩⟩
      commandCount := 0
      defaultHandler := none
      nullHandler := none
      delim := [32, 0]
      term := 10
      term2 := 13
      buffer := (raw ++ List.replicate (P.SERIALCOMMAND_BUFFER + 1) 0).take
        (P.SERIALCOMMAND_BUFFER + 1)
      bufPos := 0
      last := none }

/-- Member `SerialCommand::addCommand`. -/
def addCommand (P : Params) (s : State) (command : List Nat) (function : Handler) : State :=
  if s.commandCount ≥ P.SERIALCOMMAND_MAXCOMMANDCOUNT then s
  else
    { s with
      commandList := s.commandList.set s.commandCount
        ⟨strncpy command P.SERIALCOMMAND_MAXCOMMANDLENGTH, function⟩
      commandCount := s.commandCount + 1 }

/-- Member `SerialCommand::setDefaultHandler`. -/
def setDefaultHandler (s : State) (function : Option Handler) : State :=
  { s with defaultHandler := function }

/-- Member `SerialCommand::setNullHandler`. -/
def setNullHandler (s : State) (function : Option Handler) : State :=
  { s with nullHandler := function }

/-- Member `SerialCommand::next`: the returned pointer and the state afterwards. -/
def next (P : Params) (s : State) : Option Nat × State :=
  let r := strtok_r P.strtokNullAtEnd s.buffer none s.delim s.last
  (r.1, { s with buffer := r.2.1, last := r.2.2 })

/-- The string a returned token pointer designates. -/
def tokenAt (s : State) (p : Option Nat) : Option (List Nat) :=
  p.map (fun i => cstr (s.buffer.drop i))

/-- A handler body making `k` calls of `next()`: the strings it obtains and the state
afterwards. -/
def pull (P : Params) : Nat → State → List (Option (List Nat)) × State
  | 0, s => ([], s)
  | k + 1, s =>
    (tokenAt (next P s).2 (next P s).1 :: (pull P k (next P s).2).1,
      (pull P k (next P s).2).2)

/-- The scan of `commandList` in `readSerial`, from index `i`: the first entry whose
name compares equal to `command` under `strncmp`. -/
def findCommand (n : Nat) (command : List Nat) :
    List SerialCommandCallback → Nat → Option (Nat × Handler)
  | [], _ => none
  | e :: es, i =>
    if strncmp command e.command n = 0 then some (i, e.function)
    else findCommand n command es (i + 1)

/-- The terminator branch of `readSerial` (source lines 97 to 130). -/
def dispatch (P : Params) (s : State) : State × Cycle :=
  let r := strtok_r P.strtokNullAtEnd s.buffer (some 0) s.delim s.last
  let s1 : State := { s with buffer := r.2.1, last := r.2.2 }
  match r.1 with
  | some tok =>
    match findCommand P.SERIALCOMMAND_MAXCOMMANDLENGTH (s1.buffer.drop tok)
        (s1.commandList.take s1.commandCount) 0 with
    | some (i, h) =>
      (clearBuffer (pull P h.pulls s1).2,
        ⟨cstr s.buffer, some (Call.command i h), (pull P h.pulls s1).1⟩)
    | none =>
      match s1.defaultHandler with
      | some h =>
        (clearBuffer (pull P h.pulls s1).2,
          ⟨cstr s.buffer, some (Call.defaultHandler h (cstr (s1.buffer.drop tok))),
            (pull P h.pulls s1).1⟩)
      | none => (clearBuffer s1, ⟨cstr s.buffer, none, []⟩)
  | none =>
    match s1.nullHandler with
    | some h =>
      (clearBuffer (pull P h.pulls s1).2,
        ⟨cstr s.buffer, some (Call.nullHandler h), (pull P h.pulls s1).1⟩)
    | none => (clearBuffer s1, ⟨cstr s.buffer, none, []⟩)

/-- The body of the loop of `readSerial` for one byte read from the stream. -/
def readByte (P : Params) (s : State) (inChar : Nat) : State × List Cycle :=
  if inChar = s.term ∨ inChar = s.term2 then
    ((dispatch P s).1, [(dispatch P s).2])
  else if isprint inChar then
    if s.bufPos < P.SERIALCOMMAND_BUFFER then
      ({ s with
          buffer := (s.buffer.set s.bufPos inChar).set (s.bufPos + 1) 0
          bufPos := s.bufPos + 1 }, [])
    else (s, [])
  else if inChar = 127 ∨ inChar = 8 then
    if s.bufPos ≠ 0 then
      ({ s with buffer := s.buffer.set (s.bufPos - 1) 0, bufPos := s.bufPos - 1 }, [])
    else (s, [])
  else (s, [])

/-- Member `SerialCommand::readSerial`, draining the bytes `input` that the stream has
available. -/
def readSerial (P : Params) : State → List Nat → State × List Cycle
  | s, [] => (s, [])
  | s, c :: cs =>
    ((readSerial P (readByte P s c).1 cs).1,
      (readByte P s c).2 ++ (readSerial P (readByte P s c).1 cs).2)

/-! ## Vocabulary of the specification -/

/-- The tokens of a line in the words of the specification: the maximal substrings that
contain no delimiter, the empty ones left out. -/
def tokens (delim : List Nat) (line : List Nat) : List (List Nat) :=
  (line.splitOnP (isDelim delim)).filter (fun t => !t.isEmpty)

/-- The line buffer is an array of `SERIALCOMMAND_BUFFER + 1` cells holding the empty
string. -/
def Ready (P : Params) (s : State) : Prop :=
  s.buffer.length = P.SERIALCOMMAND_BUFFER + 1 ∧ s.bufPos = 0 ∧ s.buffer.head? = some 0

instance (P : Params) (s : State) : Decidable (Ready P s) := by
  unfold Ready; infer_instance

/-- Every byte of `line` is printable and is not a terminator of `s`. -/
def LineBytes (s : State) (line : List Nat) : Prop :=
  ∀ c ∈ line, isprint c = true ∧ c ≠ s.term ∧ c ≠ s.term2

instance (s : State) (line : List Nat) : Decidable (LineBytes s line) := by
  unfold LineBytes; infer_instance

/-! ## Predicates used in the proofs -/

/-- The members that neither tokenizing nor a handler body changes. -/
def Frame (s t : State) : Prop :=
  t.commandList = s.commandList ∧ t.commandCount = s.commandCount ∧
  t.defaultHandler = s.defaultHandler ∧ t.nullHandler = s.nullHandler ∧
  t.delim = s.delim ∧ t.term = s.term ∧ t.term2 = s.term2 ∧
  t.buffer.length = s.buffer.length

instance (s t : State) : Decidable (Frame s t) := by
  unfold Frame; infer_instance

/-- The state after the first `strtok_r` of a dispatch cycle. -/
def tokenized (P : Params) (s : State) : State :=
  { s with
    buffer := (strtok_r P.strtokNullAtEnd s.buffer (some 0) s.delim s.last).2.1
    last := (strtok_r P.strtokNullAtEnd s.buffer (some 0) s.delim s.last).2.2 }

/-- The buffer bound of `readSerial`: the cursor is at most `SERIALCOMMAND_BUFFER`, inside
an array of `SERIALCOMMAND_BUFFER + 1` cells, and the cell under it is NUL. -/
def BufInv (P : Params) (s : State) : Prop :=
  s.buffer.length = P.SERIALCOMMAND_BUFFER + 1 ∧ s.bufPos ≤ P.SERIALCOMMAND_BUFFER ∧
  s.buffer[s.bufPos]? = some 0

instance (P : Params) (s : State) : Decidable (BufInv P s) := by
  unfold BufInv; infer_instance

/-- A byte of the stream is a terminator of `s`. -/
def isTerm (s : State) (c : Nat) : Bool :=
  decide (c = s.term ∨ c = s.term2)

/-- No byte of `r` is NUL. -/
def NulFree (r : List Nat) : Prop :=
  ∀ c ∈ r, c ≠ 0

instance (r : List Nat) : Decidable (NulFree r) := by
  unfold NulFree; infer_instance

/-- The saved pointer `last` designates the NUL-terminated string `r` inside `mem`; a
`NULL` pointer designates the exhausted string, and so does a pointer to cell 0. -/
def Rep (mem : List Nat) (last : Option Nat) (r : List Nat) : Prop :=
  NulFree r ∧
  match last with
  | none => r = []
  | some q => (∃ pre rest, mem = pre ++ (r ++ 0 :: rest) ∧ pre.length = q) ∧ (q = 0 → r = [])

/-- The line buffer holds the string `content`, NUL-terminated, and the cursor is at its
end. -/
def Holds (P : Params) (s : State) (content : List Nat) : Prop :=
  s.buffer.length = P.SERIALCOMMAND_BUFFER + 1 ∧ s.bufPos = content.length ∧
  NulFree content ∧ ∃ rest, s.buffer = content ++ 0 :: rest

/-- The results of the `next()` calls of handler `h` when the tokens `ts` are left: the
tokens in order, then `NULL`. -/
def pulled (ts : List (List Nat)) (h : Handler) : List (Option (List Nat)) :=
  (List.range h.pulls).map (fun j => ts[j]?)

/-- The dispatch cycle of the specification for a line: no token selects the null
handler, a first token that the registry knows selects its handler, any other first
token selects the default handler with that token as argument. -/
def lineCycle (P : Params) (s : State) (line : List Nat) : Cycle :=
  match tokens s.delim line with
  | [] =>
    match s.nullHandler with
    | some h => ⟨line, some (Call.nullHandler h), pulled [] h⟩
    | none => ⟨line, none, []⟩
  | t :: ts =>
    match findCommand P.SERIALCOMMAND_MAXCOMMANDLENGTH t
        (s.commandList.take s.commandCount) 0 with
    | some (i, h) => ⟨line, some (Call.command i h), pulled ts h⟩
    | none =>
      match s.defaultHandler with
      | some h => ⟨line, some (Call.defaultHandler h t), pulled ts h⟩
      | none => ⟨line, none, []⟩

/-- A sequence of `addCommand` calls. -/
def addCommands (P : Params) (s : State) (cmds : List (List Nat × Handler)) : State :=
  cmds.foldl (fun st c => addCommand P st c.1 c.2) s

/-- The operations of the public interface. -/
inductive Op where
  | addCommand (command : List Nat) (function : Handler)
  | setDefaultHandler (function : Option Handler)
  | setNullHandler (function : Option Handler)
  | readSerial (input : List Nat)
  | next
  | clearBuffer
deriving DecidableEq, Repr

/-- The state after one operation of the public interface. -/
def applyOp (P : Params) (s : State) : Op → State
  | Op.addCommand command function => addCommand P s command function
  | Op.setDefaultHandler function => setDefaultHandler s function
  | Op.setNullHandler function => setNullHandler s function
  | Op.readSerial input => (readSerial P s input).1
  | Op.next => (next P s).2
  | Op.clearBuffer => clearBuffer s

/-- The state after a sequence of operations of the public interface. -/
def applyOps (P : Params) (s : State) (ops : List Op) : State :=
  ops.foldl (applyOp P) s

/-- The registry entry that `addCommand` stores for a name and a handler. -/
def entryOf (P : Params) (c : List Nat × Handler) : SerialCommandCallback :=
  ⟨strncpy c.1 P.SERIALCOMMAND_MAXCOMMANDLENGTH, c.2⟩

instance (P : Params) (s : State) (content : List Nat) : Decidable (Holds P s content) :=
  decidable_of_iff
    (s.buffer.length = P.SERIALCOMMAND_BUFFER + 1 ∧ s.bufPos = content.length ∧
      NulFree content ∧ s.buffer.take (content.length + 1) = content ++ [0])
    (by
      unfold Holds
      constructor
      · rintro ⟨h1, h2, h3, h4⟩
        refine ⟨h1, h2, h3, s.buffer.drop (content.length + 1), ?_⟩
        have := List.take_append_drop (content.length + 1) s.buffer
        rw [h4] at this
        simpa using this.symm
      · rintro ⟨h1, h2, h3, rest, h4⟩
        refine ⟨h1, h2, h3, ?_⟩
        rw [h4]
        simp [List.take_append_eq_append_take])

/-- The line content after one byte, in the words of the specification: a terminator
empties the line, a printable byte is appended when fewer than `SERIALCOMMAND_BUFFER`
bytes are held and dropped otherwise, backspace and delete remove the last byte, and
any other byte is ignored. -/
def lineAfter (P : Params) (s : State) (content : List Nat) (c : Nat) : List Nat :=
  if c = s.term ∨ c = s.term2 then []
  else if isprint c then
    if content.length < P.SERIALCOMMAND_BUFFER then content ++ [c] else content
  else if c = 127 ∨ c = 8 then content.dropLast
  else content

/-- The line assembler of the specification run on `input` from the line `content`:
the line content at the end and the dispatch cycles, one per terminator byte, each on
the line accumulated so far. -/
def lineRun (P : Params) (s : State) : List Nat → List Nat → List Nat × List Cycle
  | content, [] => (content, [])
  | content, c :: cs =>
    ((lineRun P s (lineAfter P s content c) cs).1,
      (if c = s.term ∨ c = s.term2 then [lineCycle P s content] else []) ++
        (lineRun P s (lineAfter P s content c) cs).2)

/-! ## Concrete instances -/

/-- A small configuration: 8 line bytes, 2 registry cells, names of 4 bytes, and a
`strtok_r` that saves `NULL` at the end of the string. -/
def P0 : Params := ⟨8, 2, 4, true⟩

/-- The same configuration with a `strtok_r` that saves a pointer to the final NUL. -/
def P1 : Params := ⟨8, 2, 4, false⟩

/-- A fresh object with the command `LED` registered; its handler calls `next()` twice. -/
def sLED : State := addCommand P0 (ctor P0 []) [76, 69, 68] ⟨1, 2⟩

/-- A fresh object with a default handler. -/
def sDefault : State := setDefaultHandler (ctor P0 []) (some ⟨7, 0⟩)

/-- A fresh object with a null handler that calls `next()` once. -/
def sNull : State := setNullHandler (ctor P1 [9, 9]) (some ⟨8, 1⟩)

/-- A fresh object with a default and a null handler. -/
def sBoth : State :=
  setNullHandler (setDefaultHandler (ctor P0 []) (some ⟨7, 1⟩)) (some ⟨8, 1⟩)

/-- Three registrations `A`, `B`, `C` for a registry of two cells. -/
def cmds3 : List (List Nat × Handler) := [([65], ⟨1, 0⟩), ([66], ⟨2, 0⟩), ([67], ⟨3, 0⟩)]

/-- The fresh object after the three registrations, with a default handler. -/
def sThree : State := setDefaultHandler (addCommands P0 (ctor P0 []) cmds3) (some ⟨7, 0⟩)

/-- A configuration with three registry cells. -/
def P2 : Params := ⟨8, 3, 4, false⟩

/-- A fresh object where the name `A` is registered twice, after `B`. -/
def sDup : State :=
  addCommands P2 (ctor P2 []) [([66], ⟨1, 0⟩), ([65], ⟨2, 1⟩), ([65], ⟨3, 0⟩)]

/-- A fresh object whose terminators are the printable `;` and the backspace byte, with
the line `AB` in the buffer. -/
def sSemi : State :=
  (readSerial P0 { ctor P0 [] with term := 59, term2 := 8 } [65, 66]).1

/-- The object `sBoth` after the line `A B` was dispatched. -/
def sAfterAB : State := (readSerial P0 sBoth [65, 32, 66, 10]).1

/-- The object `sBoth` after the line `XYZ 1 2` was dispatched. -/
def sAfterXYZ : State := (readSerial P0 sBoth [88, 89, 90, 32, 49, 32, 50, 10]).1

/-! ## Frame lemmas -/

theorem Frame.refl (s : State) : Frame s s :=
  ⟨rfl, rfl, rfl, rfl, rfl, rfl, rfl, rfl⟩

theorem Frame.trans {s t u : State} (h1 : Frame s t) (h2 : Frame t u) : Frame s u := by
  obtain ⟨a1, a2, a3, a4, a5, a6, a7, a8⟩ := h1
  obtain ⟨b1, b2, b3, b4, b5, b6, b7, b8⟩ := h2
  exact ⟨b1.trans a1, b2.trans a2, b3.trans a3, b4.trans a4, b5.trans a5, b6.trans a6,
    b7.trans a7, b8.trans a8⟩

theorem strtok_r_length (f : Bool) (mem : List Nat) (str : Option Nat) (d : List Nat)
    (last : Option Nat) : (strtok_r f mem str d last).2.1.length = mem.length := by
  unfold strtok_r
  split
  · rfl
  · simp only []
    split
    · rfl
    · split
      · rfl
      · simp

theorem next_frame (P : Params) (s : State) : Frame s (next P s).2 := by
  refine ⟨rfl, rfl, rfl, rfl, rfl, rfl, rfl, ?_⟩
  simp [next, strtok_r_length]

theorem next_bufPos (P : Params) (s : State) : (next P s).2.bufPos = s.bufPos := rfl

theorem pull_frame (P : Params) (k : Nat) (s : State) : Frame s (pull P k s).2 := by
  induction k generalizing s with
  | zero => exact Frame.refl s
  | succ k ih => exact Frame.trans (next_frame P s) (ih (next P s).2)

theorem pull_bufPos (P : Params) (k : Nat) (s : State) :
    (pull P k s).2.bufPos = s.bufPos := by
  induction k generalizing s with
  | zero => rfl
  | succ k ih => exact (ih (next P s).2).trans (next_bufPos P s)

theorem pull_length (P : Params) (k : Nat) (s : State) : (pull P k s).1.length = k := by
  induction k generalizing s with
  | zero => rfl
  | succ k ih => simp [pull, ih]

theorem tokenized_frame (P : Params) (s : State) : Frame s (tokenized P s) := by
  refine ⟨rfl, rfl, rfl, rfl, rfl, rfl, rfl, ?_⟩
  simp [tokenized, strtok_r_length]

theorem clearBuffer_frame (s : State) : Frame s (clearBuffer s) := by
  refine ⟨rfl, rfl, rfl, rfl, rfl, rfl, rfl, ?_⟩
  simp [clearBuffer]

/-- The state a dispatch cycle ends in: the buffer is tokenized, the handler makes its
`next()` calls (as many as the cycle reports), and `clearBuffer` runs. -/
theorem dispatch_state (P : Params) (s : State) :
    (dispatch P s).1 =
      clearBuffer (pull P (dispatch P s).2.nexts.length (tokenized P s)).2 := by
  unfold dispatch
  simp only []
  split
  · split
    · simp only [pull_length]; rfl
    · split
      · simp only [pull_length]; rfl
      · rfl
  · split
    · simp only [pull_length]; rfl
    · rfl

theorem dispatch_frame (P : Params) (s : State) : Frame s (dispatch P s).1 := by
  rw [dispatch_state]
  exact Frame.trans (tokenized_frame P s)
    (Frame.trans (pull_frame P _ _) (clearBuffer_frame _))

theorem dispatch_bufPos (P : Params) (s : State) : (dispatch P s).1.bufPos = 0 := by
  rw [dispatch_state]; rfl

theorem dispatch_head (P : Params) (s : State) (h : s.buffer ≠ []) :
    (dispatch P s).1.buffer.head? = some 0 := by
  have hf := (Frame.trans (tokenized_frame P s) (pull_frame P
    (dispatch P s).2.nexts.length (tokenized P s))).2.2.2.2.2.2.2
  rw [dispatch_state]
  simp only [clearBuffer]
  generalize (pull P (dispatch P s).2.nexts.length (tokenized P s)).2.buffer = b at hf
  cases b with
  | nil =>
    have h0 : s.buffer.length = 0 := by simpa using hf.symm
    exact absurd (List.length_eq_zero.mp h0) h
  | cons x xs => rfl

theorem readByte_frame (P : Params) (s : State) (c : Nat) : Frame s (readByte P s c).1 := by
  unfold readByte
  split
  · exact dispatch_frame P s
  · split
    · split
      · refine ⟨rfl, rfl, rfl, rfl, rfl, rfl, rfl, ?_⟩
        simp
      · exact Frame.refl s
    · split
      · split
        · refine ⟨rfl, rfl, rfl, rfl, rfl, rfl, rfl, ?_⟩
          simp
        · exact Frame.refl s
      · exact Frame.refl s

theorem readSerial_frame (P : Params) (s : State) (input : List Nat) :
    Frame s (readSerial P s input).1 := by
  induction input generalizing s with
  | nil => exact Frame.refl s
  | cons c cs ih => exact Frame.trans (readByte_frame P s c) (ih _)

theorem readSerial_append (P : Params) (s : State) (xs ys : List Nat) :
    readSerial P s (xs ++ ys) =
      ((readSerial P (readSerial P s xs).1 ys).1,
        (readSerial P s xs).2 ++ (readSerial P (readSerial P s xs).1 ys).2) := by
  induction xs generalizing s with
  | nil => simp [readSerial]
  | cons c cs ih => simp [readSerial, ih, List.append_assoc]

/-! ## The buffer bound -/

theorem ctor_bufInv (P : Params) (raw : List Nat) : BufInv P (ctor P raw) := by
  refine ⟨?_, Nat.zero_le _, ?_⟩
  · simp [ctor, clearBuffer]
  · simp only [ctor, clearBuffer]
    rw [List.getElem?_set_self]
    simp

theorem readByte_bufInv (P : Params) (s : State) (c : Nat) (h : BufInv P s) :
    BufInv P (readByte P s c).1 := by
  obtain ⟨hl, hp, hz⟩ := h
  have hlen := (readByte_frame P s c).2.2.2.2.2.2.2
  refine ⟨hlen.trans hl, ?_⟩
  unfold readByte
  split
  · have hne : s.buffer ≠ [] := by
      intro h0; rw [h0] at hl; simp at hl
    have hh := dispatch_head P s hne
    simp only [dispatch_bufPos]
    refine ⟨Nat.zero_le _, ?_⟩
    cases hb : (dispatch P s).1.buffer with
    | nil => rw [hb] at hh; simp at hh
    | cons x xs => rw [hb] at hh; simpa using hh
  · split
    · split
      · rename_i hlt
        refine ⟨hlt, ?_⟩
        simp only []
        rw [List.getElem?_set_self]
        simp; omega
      · exact ⟨hp, hz⟩
    · split
      · split
        · refine ⟨by simp only []; omega, ?_⟩
          simp only []
          rw [List.getElem?_set_self]
          omega
        · exact ⟨hp, hz⟩
      · exact ⟨hp, hz⟩

theorem readSerial_bufInv (P : Params) (s : State) (input : List Nat) (h : BufInv P s) :
    BufInv P (readSerial P s input).1 := by
  induction input generalizing s with
  | nil => exact h
  | cons c cs ih => exact ih _ (readByte_bufInv P s c h)

/-! ## Strings in memory -/

theorem cstr_append_zero (r rest : List Nat) (h : NulFree r) :
    cstr (r ++ 0 :: rest) = r := by
  unfold cstr
  rw [List.takeWhile_append_of_pos]
  · simp
  · intro c hc
    simpa using h c hc

theorem cstr_nulFree (mem : List Nat) : NulFree (cstr mem) := by
  intro c hc
  have := List.mem_takeWhile_imp hc
  simpa using this

theorem isDelim_zero (d : List Nat) : isDelim d 0 = false := by
  cases h : isDelim d 0 with
  | false => rfl
  | true =>
    have hm : 0 ∈ cstr d := by simpa [isDelim] using h
    exact absurd rfl (cstr_nulFree d 0 hm)

theorem getD_append_length (pre : List Nat) (x : Nat) (b : List Nat) :
    (pre ++ x :: b).getD pre.length 0 = x := by
  induction pre with
  | nil => rfl
  | cons a pre ih => simpa using ih

theorem set_append_length (pre : List Nat) (x v : Nat) (b : List Nat) :
    (pre ++ x :: b).set pre.length v = pre ++ v :: b := by
  induction pre with
  | nil => rfl
  | cons a pre ih => simp [ih]

theorem strspn_stop (d a : List Nat) (x : Nat) (b : List Nat)
    (ha : ∀ c ∈ a, isDelim d c = true) (hx : isDelim d x = false) :
    strspn (a ++ x :: b) d = a.length := by
  unfold strspn
  rw [List.takeWhile_append_of_pos ha]
  simp [hx]

theorem strcspn_stop (d w : List Nat) (x : Nat) (b : List Nat)
    (hw : ∀ c ∈ w, c ≠ 0 ∧ isDelim d c = false) (hx : x = 0 ∨ isDelim d x = true) :
    strcspn (w ++ x :: b) d = w.length := by
  unfold strcspn
  rw [List.takeWhile_append_of_pos]
  · rcases hx with hx | hx
    · simp [hx]
    · simp [hx]
  · intro c hc
    simp [hw c hc]

/-- Tokenizing when only delimiters are left: `strtok_r` returns `NULL` and writes
nothing. -/
theorem strtok_r_none (f : Bool) (d pre a rest : List Nat) (str last : Option Nat)
    (hp : str.orElse (fun _ => last) = some pre.length)
    (ha : ∀ c ∈ a, isDelim d c = true) :
    strtok_r f (pre ++ (a ++ 0 :: rest)) str d last =
      (none, pre ++ (a ++ 0 :: rest),
        if f then none else some (pre.length + a.length)) := by
  unfold strtok_r
  rw [hp]
  simp only [List.drop_left]
  rw [strspn_stop d a 0 rest ha (isDelim_zero d)]
  have hg : (pre ++ (a ++ 0 :: rest)).getD (pre.length + a.length) 0 = 0 := by
    have := getD_append_length (pre ++ a) 0 rest
    simpa [List.append_assoc] using this
  rw [if_pos hg]

/-- Tokenizing when the last token of the string is left: it is returned and nothing is
written. -/
theorem strtok_r_last (f : Bool) (d pre a : List Nat) (x : Nat) (w rest : List Nat)
    (str last : Option Nat)
    (hp : str.orElse (fun _ => last) = some pre.length)
    (ha : ∀ c ∈ a, isDelim d c = true)
    (hw : ∀ c ∈ x :: w, c ≠ 0 ∧ isDelim d c = false) :
    strtok_r f (pre ++ (a ++ (x :: w ++ 0 :: rest))) str d last =
      (some (pre.length + a.length), pre ++ (a ++ (x :: w ++ 0 :: rest)),
        if f then none else some (pre.length + a.length + (x :: w).length)) := by
  have hx := hw x (List.mem_cons_self x w)
  unfold strtok_r
  rw [hp]
  simp only [List.drop_left]
  have h1 : strspn (a ++ (x :: w ++ 0 :: rest)) d = a.length :=
    strspn_stop d a x (w ++ 0 :: rest) ha hx.2
  rw [h1]
  have hg : (pre ++ (a ++ (x :: w ++ 0 :: rest))).getD (pre.length + a.length) 0 = x := by
    have := getD_append_length (pre ++ a) x (w ++ 0 :: rest)
    simpa [List.append_assoc] using this
  rw [hg, if_neg hx.1]
  have hd : (pre ++ (a ++ (x :: w ++ 0 :: rest))).drop (pre.length + a.length) =
      (x :: w) ++ 0 :: rest := by
    simp [List.append_assoc]
  simp only [hd]
  rw [strcspn_stop d (x :: w) 0 rest hw (Or.inl rfl)]
  have hg2 : (pre ++ (a ++ (x :: w ++ 0 :: rest))).getD
      (pre.length + a.length + (x :: w).length) 0 = 0 := by
    have := getD_append_length (pre ++ a ++ (x :: w)) 0 rest
    simpa [List.append_assoc, Nat.add_assoc] using this
  rw [if_pos hg2]

/-- Tokenizing when a token is followed by a delimiter: the delimiter is overwritten
with NUL and the saved pointer is the cell after it. -/
theorem strtok_r_mid (f : Bool) (d pre a : List Nat) (x : Nat) (w : List Nat) (y : Nat)
    (rest : List Nat) (str last : Option Nat)
    (hp : str.orElse (fun _ => last) = some pre.length)
    (ha : ∀ c ∈ a, isDelim d c = true)
    (hw : ∀ c ∈ x :: w, c ≠ 0 ∧ isDelim d c = false)
    (hy : isDelim d y = true) :
    strtok_r f (pre ++ (a ++ (x :: w ++ y :: rest))) str d last =
      (some (pre.length + a.length), pre ++ (a ++ (x :: w ++ 0 :: rest)),
        some (pre.length + a.length + (x :: w).length + 1)) := by
  have hx := hw x (List.mem_cons_self x w)
  have hy0 : y ≠ 0 := by
    intro h0; rw [h0, isDelim_zero] at hy; exact Bool.noConfusion hy
  unfold strtok_r
  rw [hp]
  simp only [List.drop_left]
  have h1 : strspn (a ++ (x :: w ++ y :: rest)) d = a.length :=
    strspn_stop d a x (w ++ y :: rest) ha hx.2
  rw [h1]
  have hg : (pre ++ (a ++ (x :: w ++ y :: rest))).getD (pre.length + a.length) 0 = x := by
    have := getD_append_length (pre ++ a) x (w ++ y :: rest)
    simpa [List.append_assoc] using this
  rw [hg, if_neg hx.1]
  have hd : (pre ++ (a ++ (x :: w ++ y :: rest))).drop (pre.length + a.length) =
      (x :: w) ++ y :: rest := by
    simp [List.append_assoc]
  simp only [hd]
  rw [strcspn_stop d (x :: w) y rest hw (Or.inr hy)]
  have hg2 : (pre ++ (a ++ (x :: w ++ y :: rest))).getD
      (pre.length + a.length + (x :: w).length) 0 = y := by
    have := getD_append_length (pre ++ a ++ (x :: w)) y rest
    simpa [List.append_assoc, Nat.add_assoc] using this
  rw [hg2, if_neg hy0]
  have hs : (pre ++ (a ++ (x :: w ++ y :: rest))).set
      (pre.length + a.length + (x :: w).length) 0 = pre ++ (a ++ (x :: w ++ 0 :: rest)) := by
    simp [List.append_assoc, Nat.add_assoc]
  rw [hs]

/-! ## Tokens of a string -/

theorem tokens_nil (d : List Nat) : tokens d [] = [] := by
  simp [tokens]

theorem tokens_delims (d a r : List Nat) (ha : ∀ c ∈ a, isDelim d c = true) :
    tokens d (a ++ r) = tokens d r := by
  induction a with
  | nil => rfl
  | cons c a ih =>
    have hc := ha c (List.mem_cons_self c a)
    have ih1 := ih (fun c1 h1 => ha c1 (List.mem_cons_of_mem c h1))
    unfold tokens at ih1 ⊢
    simp only [List.cons_append, List.splitOnP_cons, hc, if_true]
    rw [List.filter_cons_of_neg (by simp)]
    exact ih1

theorem tokens_word (d : List Nat) (x : Nat) (w : List Nat)
    (hw : ∀ c ∈ x :: w, c ≠ 0 ∧ isDelim d c = false) : tokens d (x :: w) = [x :: w] := by
  unfold tokens
  rw [List.splitOnP_eq_single]
  · simp
  · intro c hc
    simp [(hw c hc).2]

theorem tokens_word_delim (d : List Nat) (x : Nat) (w : List Nat) (y : Nat) (r : List Nat)
    (hw : ∀ c ∈ x :: w, c ≠ 0 ∧ isDelim d c = false) (hy : isDelim d y = true) :
    tokens d (x :: w ++ y :: r) = (x :: w) :: tokens d r := by
  unfold tokens
  rw [List.splitOnP_first (isDelim d) (x :: w) (fun c hc => by simp [(hw c hc).2]) y hy r]
  simp

/-- Every NUL-free string is a run of delimiters followed by nothing, by a last token,
or by a token, a delimiter and a remainder. -/
theorem string_shape (d r : List Nat) (hr : NulFree r) :
    ∃ a, (∀ c ∈ a, isDelim d c = true) ∧
      (r = a ∨
        (∃ x w, (∀ c ∈ x :: w, c ≠ 0 ∧ isDelim d c = false) ∧
          (r = a ++ (x :: w) ∨
            ∃ y r3, isDelim d y = true ∧ NulFree r3 ∧ r = a ++ (x :: w ++ y :: r3)))) := by
  refine ⟨r.takeWhile (isDelim d), fun c hc => List.mem_takeWhile_imp hc, ?_⟩
  have hsplit := List.takeWhile_append_dropWhile (isDelim d) r
  cases hm : r.dropWhile (isDelim d) with
  | nil =>
    left
    rw [hm] at hsplit
    simpa using hsplit.symm
  | cons x m =>
    right
    have hreq : r = r.takeWhile (isDelim d) ++ x :: m := by
      rw [← hm]; exact hsplit.symm
    have hxd : isDelim d x = false := by
      have := List.head?_dropWhile_not (isDelim d) r
      rw [hm] at this
      simpa using this
    have hmem : ∀ c ∈ x :: m, c ∈ r := by
      intro c hc
      rw [← hsplit, hm]
      exact List.mem_append_right _ hc
    have hsplit2 := List.takeWhile_append_dropWhile (fun c => !isDelim d c) m
    have hwd : ∀ c ∈ x :: m.takeWhile (fun c => !isDelim d c),
        c ≠ 0 ∧ isDelim d c = false := by
      intro c hc
      rcases List.mem_cons.mp hc with h | h
      · subst h
        exact ⟨hr c (hmem c (List.mem_cons_self c m)), hxd⟩
      · have h1 := List.mem_takeWhile_imp h
        have h2 : c ∈ m := by
          rw [← hsplit2]; exact List.mem_append_left _ h
        exact ⟨hr c (hmem c (List.mem_cons_of_mem x h2)), by simpa using h1⟩
    refine ⟨x, m.takeWhile (fun c => !isDelim d c), hwd, ?_⟩
    cases hm2 : m.dropWhile (fun c => !isDelim d c) with
    | nil =>
      left
      rw [hm2] at hsplit2
      simp only [List.append_nil] at hsplit2
      rw [hsplit2]
      exact hreq
    | cons y r3 =>
      right
      have hyd : isDelim d y = true := by
        have := List.head?_dropWhile_not (fun c => !isDelim d c) m
        rw [hm2] at this
        simpa using this
      refine ⟨y, r3, hyd, ?_, ?_⟩
      · intro c hc
        have h2 : c ∈ m := by
          rw [← hsplit2, hm2]
          exact List.mem_append_right _ (List.mem_cons_of_mem y hc)
        exact hr c (hmem c (List.mem_cons_of_mem x h2))
      · rw [hm2] at hsplit2
        simp only [List.cons_append]
        rw [hsplit2]
        exact hreq

/-! ## The token cursor -/

theorem nulFree_nil : NulFree [] := by
  intro c hc; simp at hc

/-- One call of `strtok_r` on a NUL-terminated string returns the first token of the
string and leaves the saved pointer at a string holding the remaining tokens. -/
theorem strtok_r_tokens (f : Bool) (d pre r rest : List Nat) (str last : Option Nat)
    (hp : str.orElse (fun _ => last) = some pre.length) (hr : NulFree r) :
    (strtok_r f (pre ++ (r ++ 0 :: rest)) str d last).1.map
        (fun i => cstr ((strtok_r f (pre ++ (r ++ 0 :: rest)) str d last).2.1.drop i)) =
      (tokens d r).head? ∧
    ∃ r1, Rep (strtok_r f (pre ++ (r ++ 0 :: rest)) str d last).2.1
        (strtok_r f (pre ++ (r ++ 0 :: rest)) str d last).2.2 r1 ∧
      tokens d r1 = (tokens d r).tail := by
  obtain ⟨a, ha, hshape⟩ := string_shape d r hr
  rcases hshape with h | ⟨x, w, hw, h | ⟨y, r3, hy, hr3, h⟩⟩
  · subst h
    rw [strtok_r_none f d pre r rest str last hp ha]
    have ht : tokens d r = [] := by
      have := tokens_delims d r [] ha
      rw [List.append_nil] at this
      rw [this, tokens_nil]
    rw [ht]
    refine ⟨rfl, [], ⟨nulFree_nil, ?_⟩, by rw [tokens_nil]; rfl⟩
    cases f with
    | true => rfl
    | false =>
      refine ⟨⟨pre ++ r, rest, by simp, by simp⟩, fun _ => rfl⟩
  · subst h
    have hm : pre ++ ((a ++ x :: w) ++ 0 :: rest) = pre ++ (a ++ (x :: w ++ 0 :: rest)) := by
      simp
    rw [hm, strtok_r_last f d pre a x w rest str last hp ha hw]
    have ht : tokens d (a ++ x :: w) = [x :: w] := by
      rw [tokens_delims d a (x :: w) ha, tokens_word d x w hw]
    rw [ht]
    have hwn : NulFree (x :: w) := fun c hc => (hw c hc).1
    refine ⟨?_, [], ⟨nulFree_nil, ?_⟩, by rw [tokens_nil]; rfl⟩
    · have hd : (pre ++ (a ++ (x :: w ++ 0 :: rest))).drop (pre.length + a.length) =
          (x :: w) ++ 0 :: rest := by
        simp [List.append_assoc]
      simp only [Option.map_some', hd, List.head?_cons]
      rw [cstr_append_zero (x :: w) rest hwn]
    · cases f with
      | true => rfl
      | false =>
        refine ⟨⟨pre ++ a ++ (x :: w), rest, by simp, by simp [Nat.add_assoc]⟩, ?_⟩
        intro h0
        simp at h0
  · subst h
    have hm : pre ++ ((a ++ (x :: w ++ y :: r3)) ++ 0 :: rest) =
        pre ++ (a ++ (x :: w ++ y :: (r3 ++ 0 :: rest))) := by
      simp
    rw [hm, strtok_r_mid f d pre a x w y (r3 ++ 0 :: rest) str last hp ha hw hy]
    have ht : tokens d (a ++ (x :: w ++ y :: r3)) = (x :: w) :: tokens d r3 := by
      rw [tokens_delims d a _ ha, tokens_word_delim d x w y r3 hw hy]
    rw [ht]
    have hwn : NulFree (x :: w) := fun c hc => (hw c hc).1
    refine ⟨?_, r3, ⟨hr3, ?_⟩, rfl⟩
    · have hd : (pre ++ (a ++ (x :: w ++ 0 :: (r3 ++ 0 :: rest)))).drop
          (pre.length + a.length) = (x :: w) ++ 0 :: (r3 ++ 0 :: rest) := by
        simp [List.append_assoc]
      simp only [Option.map_some', hd, List.head?_cons]
      rw [cstr_append_zero (x :: w) _ hwn]
    · refine ⟨⟨pre ++ a ++ (x :: w) ++ [0], rest, by simp, by simp [Nat.add_assoc]⟩, ?_⟩
      intro h0
      simp at h0

/-- One call of `next()` returns the first token of the string under the cursor and
moves the cursor to the remaining tokens. -/
theorem next_spec (P : Params) (s : State) (r : List Nat) (h : Rep s.buffer s.last r) :
    tokenAt (next P s).2 (next P s).1 = (tokens s.delim r).head? ∧
    ∃ r1, Rep (next P s).2.buffer (next P s).2.last r1 ∧
      tokens s.delim r1 = (tokens s.delim r).tail := by
  obtain ⟨hr, hrep⟩ := h
  cases hl : s.last with
  | none =>
    rw [hl] at hrep
    simp only [] at hrep
    subst hrep
    have he : strtok_r P.strtokNullAtEnd s.buffer none s.delim none = (none, s.buffer, none) :=
      rfl
    simp only [next, tokenAt, hl, he, tokens_nil]
    exact ⟨rfl, [], ⟨nulFree_nil, rfl⟩, by rw [tokens_nil]; rfl⟩
  | some q =>
    rw [hl] at hrep
    obtain ⟨⟨pre, rest, hmem, hq⟩, _⟩ := hrep
    have hp : (none : Option Nat).orElse (fun _ => some q) = some pre.length := by
      rw [hq]; rfl
    have key := strtok_r_tokens P.strtokNullAtEnd s.delim pre r rest none (some q) hp hr
    simp only [next, tokenAt, hl, hmem]
    exact key

/-- A handler body making `k` calls of `next()` obtains the first `k` tokens of the
string under the cursor, in order, and `NULL` once they are used up. -/
theorem pull_spec (P : Params) (k : Nat) (s : State) (r : List Nat)
    (h : Rep s.buffer s.last r) :
    (pull P k s).1 = (List.range k).map (fun j => (tokens s.delim r)[j]?) ∧
    ∃ r1, Rep (pull P k s).2.buffer (pull P k s).2.last r1 ∧
      tokens s.delim r1 = (tokens s.delim r).drop k := by
  induction k generalizing s r with
  | zero => exact ⟨rfl, r, h, rfl⟩
  | succ k ih =>
    obtain ⟨h1, r1, hrep1, ht1⟩ := next_spec P s r h
    obtain ⟨h2, r2, hrep2, ht2⟩ := ih (next P s).2 r1 hrep1
    have hd : (next P s).2.delim = s.delim := rfl
    rw [hd] at h2 ht2
    refine ⟨?_, r2, hrep2, ?_⟩
    · simp only [pull, h1, h2, ht1, List.range_succ_eq_map, List.map_cons, List.map_map]
      congr 1
      · cases tokens s.delim r <;> simp
      · apply List.map_congr_left
        intro j _
        cases tokens s.delim r <;> simp
    · rw [ht2, ht1]
      simp

theorem rep_clear (mem : List Nat) (last : Option Nat) (r : List Nat) (h : Rep mem last r) :
    Rep (mem.set 0 0) last r := by
  obtain ⟨hr, hrep⟩ := h
  refine ⟨hr, ?_⟩
  cases last with
  | none => exact hrep
  | some q =>
    obtain ⟨⟨pre, rest, hmem, hq⟩, h0⟩ := hrep
    simp only []
    refine ⟨?_, h0⟩
    cases pre with
    | nil =>
      have hq0 : q = 0 := by rw [← hq]; rfl
      have hr0 := h0 hq0
      subst hr0
      refine ⟨[], rest, ?_, hq⟩
      rw [hmem]; rfl
    | cons c pre =>
      refine ⟨0 :: pre, rest, ?_, by rw [← hq]; rfl⟩
      rw [hmem]; rfl

/-! ## Assembling a line -/

theorem isprint_ne_zero (c : Nat) (h : isprint c = true) : c ≠ 0 := by
  intro h0
  subst h0
  simp [isprint] at h

theorem holds_of_ready (P : Params) (s : State) (h : Ready P s) : Holds P s [] := by
  obtain ⟨hl, hp, hh⟩ := h
  refine ⟨hl, hp, nulFree_nil, ?_⟩
  cases hb : s.buffer with
  | nil => rw [hb] at hh; simp at hh
  | cons x xs =>
    rw [hb] at hh
    simp at hh
    exact ⟨xs, by rw [hh]; rfl⟩

theorem holds_length_le (P : Params) (s : State) (content : List Nat)
    (h : Holds P s content) : content.length ≤ P.SERIALCOMMAND_BUFFER := by
  obtain ⟨hl, _, _, rest, hb⟩ := h
  rw [hb] at hl
  simp at hl
  omega

theorem holds_cstr (P : Params) (s : State) (content : List Nat) (h : Holds P s content) :
    cstr s.buffer = content := by
  obtain ⟨_, _, hn, rest, hb⟩ := h
  rw [hb]
  exact cstr_append_zero content rest hn

theorem take_take_append (n : Nat) (l m : List Nat) :
    (l.take n ++ m).take n = (l ++ m).take n := by
  induction l generalizing n with
  | nil => simp
  | cons a l ih =>
    cases n with
    | zero => simp
    | succ n => simp [ih]

/-- A printable byte that is not a terminator is appended when there is room and
dropped otherwise; no dispatch cycle runs and the token cursor is untouched. -/
theorem readByte_printable (P : Params) (s : State) (content : List Nat) (c : Nat)
    (h : Holds P s content) (hc : isprint c = true) (ht : c ≠ s.term ∧ c ≠ s.term2) :
    (readByte P s c).2 = [] ∧
    Holds P (readByte P s c).1 ((content ++ [c]).take P.SERIALCOMMAND_BUFFER) ∧
    (readByte P s c).1.last = s.last := by
  have hle := holds_length_le P s content h
  obtain ⟨hl, hp, hn, rest, hb⟩ := h
  have hnt : ¬ (c = s.term ∨ c = s.term2) := by
    intro h1; rcases h1 with h1 | h1
    · exact ht.1 h1
    · exact ht.2 h1
  unfold readByte
  rw [if_neg hnt, if_pos hc]
  split
  · rename_i hlt
    rw [hp] at hlt
    refine ⟨rfl, ?_, rfl⟩
    have htake : (content ++ [c]).take P.SERIALCOMMAND_BUFFER = content ++ [c] := by
      apply List.take_of_length_le
      simp; omega
    rw [htake]
    cases rest with
    | nil => rw [hb] at hl; simp at hl; omega
    | cons z rest =>
      refine ⟨by simpa using hl, by simp [hp], ?_, rest, ?_⟩
      · intro x hx
        rcases List.mem_append.mp hx with h1 | h1
        · exact hn x h1
        · simp at h1; rw [h1]; exact isprint_ne_zero c hc
      · simp only [hp, hb]
        rw [set_append_length content 0 c (z :: rest)]
        simp [List.append_assoc]
  · rename_i hge
    rw [hp] at hge
    have heq : content.length = P.SERIALCOMMAND_BUFFER := by omega
    refine ⟨rfl, ?_, rfl⟩
    have htake : (content ++ [c]).take P.SERIALCOMMAND_BUFFER = content := by
      rw [← heq]; simp
    rw [htake]
    exact ⟨hl, hp, hn, rest, hb⟩

/-- Feeding printable bytes that are not terminators accumulates them, up to the
capacity of the buffer, without any dispatch cycle. -/
theorem readSerial_line (P : Params) (s : State) (content w : List Nat)
    (h : Holds P s content) (hw : LineBytes s w) :
    (readSerial P s w).2 = [] ∧
    Holds P (readSerial P s w).1 ((content ++ w).take P.SERIALCOMMAND_BUFFER) ∧
    (readSerial P s w).1.last = s.last := by
  induction w generalizing s content with
  | nil =>
    refine ⟨rfl, ?_, rfl⟩
    rw [List.append_nil, List.take_of_length_le (holds_length_le P s content h)]
    exact h
  | cons c cs ih =>
    have hc := hw c (List.mem_cons_self c cs)
    obtain ⟨h1, h2, h3⟩ := readByte_printable P s content c h hc.1 hc.2
    have hf := readByte_frame P s c
    have hw2 : LineBytes (readByte P s c).1 cs := by
      intro x hx
      have := hw x (List.mem_cons_of_mem c hx)
      rw [hf.2.2.2.2.2.1, hf.2.2.2.2.2.2.1]
      exact this
    obtain ⟨i1, i2, i3⟩ := ih (readByte P s c).1 _ h2 hw2
    refine ⟨?_, ?_, ?_⟩
    · simp only [readSerial, h1, i1, List.append_nil]
    · simp only [readSerial]
      rw [take_take_append] at i2
      simpa [List.append_assoc] using i2
    · simp only [readSerial]
      rw [i3, h3]

/-! ## The dispatch cycle on a line -/

theorem strncmp_cstr (a b : List Nat) (n : Nat) : strncmp (cstr a) b n = strncmp a b n := by
  induction n generalizing a b with
  | zero => simp [strncmp]
  | succ n ih =>
    cases a with
    | nil => rfl
    | cons x a =>
      by_cases hx : x = 0
      · subst hx
        simp [strncmp, cstr]
      · have hc : cstr (x :: a) = x :: cstr a := by
          simp [cstr, hx]
        rw [hc]
        simp only [strncmp, List.headD_cons, List.tail_cons]
        rw [ih a b.tail]

theorem findCommand_cstr (n : Nat) (a : List Nat) (es : List SerialCommandCallback)
    (i : Nat) : findCommand n (cstr a) es i = findCommand n a es i := by
  induction es generalizing i with
  | nil => rfl
  | cons e es ih => simp only [findCommand, strncmp_cstr, ih]

/-- The dispatch cycle that `readSerial` runs on a buffer holding `line` is the cycle of
the specification for `line`. -/
theorem dispatch_spec (P : Params) (s : State) (line : List Nat) (h : Holds P s line) :
    (dispatch P s).2 = lineCycle P s line := by
  have hline := holds_cstr P s line h
  obtain ⟨hlen, hpos, hnf, rest, hbuf⟩ := h
  have key := strtok_r_tokens P.strtokNullAtEnd s.delim [] line rest (some 0) s.last rfl hnf
  simp only [List.nil_append] at key
  rw [← hbuf] at key
  obtain ⟨hhead, r1, hrep, htail⟩ := key
  have hpull : ∀ k, (pull P k (tokenized P s)).1 =
      (List.range k).map (fun j => (tokens s.delim line).tail[j]?) := by
    intro k
    have h1 := (pull_spec P k (tokenized P s) r1 hrep).1
    have hd : (tokenized P s).delim = s.delim := rfl
    rw [h1, hd, htail]
  simp only [tokenized] at hpull
  unfold dispatch lineCycle
  simp only [hline]
  split
  · rename_i tok heq
    rw [heq] at hhead
    cases ht : tokens s.delim line with
    | nil => rw [ht] at hhead; simp at hhead
    | cons t ts =>
      rw [ht] at hhead hpull
      simp only [Option.map_some', List.head?_cons, Option.some.injEq] at hhead
      simp only [List.tail_cons] at hpull
      rw [← findCommand_cstr, hhead]
      split
      · rename_i i hh hfind
        rw [hpull]
        simp only [hfind, pulled]
      · rename_i hfind
        simp only [hfind]
        split
        · rename_i hh hdef
          rw [hpull]
          simp only [hdef, pulled, hhead]
        · rename_i hdef
          simp only [hdef]
  · rename_i heq
    rw [heq] at hhead
    cases ht : tokens s.delim line with
    | cons t ts => rw [ht] at hhead; simp at hhead
    | nil =>
      rw [ht] at hpull
      simp only [List.tail_nil] at hpull
      split
      · rename_i hh hnull
        rw [hpull]
        simp only [hnull, pulled]
      · rename_i hnull
        simp only [hnull]

theorem lineCycle_frame (P : Params) (s t : State) (line : List Nat) (h : Frame s t) :
    lineCycle P t line = lineCycle P s line := by
  obtain ⟨h1, h2, h3, h4, h5, _, _, _⟩ := h
  unfold lineCycle
  rw [h1, h2, h3, h4, h5]

theorem readByte_term (P : Params) (s : State) (t : Nat) (ht : t = s.term ∨ t = s.term2) :
    readByte P s t = ((dispatch P s).1, [(dispatch P s).2]) := by
  unfold readByte
  rw [if_pos ht]

/-- A line assembled from the empty buffer and closed by a terminator runs exactly one
dispatch cycle, the cycle of the specification for that line. -/
theorem readSerial_line_term (P : Params) (s : State) (line : List Nat) (t : Nat)
    (hs : Ready P s) (hl : LineBytes s line)
    (hlen : line.length ≤ P.SERIALCOMMAND_BUFFER) (ht : t = s.term ∨ t = s.term2) :
    readSerial P s (line ++ [t]) =
      ((dispatch P (readSerial P s line).1).1, [lineCycle P s line]) := by
  obtain ⟨h1, h2, _⟩ := readSerial_line P s [] line (holds_of_ready P s hs) hl
  rw [List.nil_append, List.take_of_length_le hlen] at h2
  have hf := readSerial_frame P s line
  have ht2 : t = (readSerial P s line).1.term ∨ t = (readSerial P s line).1.term2 := by
    rw [hf.2.2.2.2.2.1, hf.2.2.2.2.2.2.1]; exact ht
  rw [readSerial_append, h1]
  simp only [readSerial, readByte_term P _ t ht2, List.nil_append, List.append_nil]
  rw [dispatch_spec P _ line h2, lineCycle_frame P s _ line hf]

/-- After a dispatch cycle on a buffer holding `line`, the cursor is left at the tokens
of the line that the cycle did not consume: all but the first token and the ones the
handler pulled. -/
theorem dispatch_cursor (P : Params) (s : State) (line : List Nat) (h : Holds P s line) :
    ∃ r, Rep (dispatch P s).1.buffer (dispatch P s).1.last r ∧
      tokens s.delim r = (tokens s.delim line).drop ((dispatch P s).2.nexts.length + 1) := by
  obtain ⟨hlen, hpos, hnf, rest, hbuf⟩ := h
  have key := strtok_r_tokens P.strtokNullAtEnd s.delim [] line rest (some 0) s.last rfl hnf
  simp only [List.nil_append] at key
  rw [← hbuf] at key
  obtain ⟨_, r1, hrep, htail⟩ := key
  obtain ⟨_, r2, hrep2, ht2⟩ :=
    pull_spec P (dispatch P s).2.nexts.length (tokenized P s) r1 hrep
  have hd : (tokenized P s).delim = s.delim := rfl
  rw [hd, htail] at ht2
  refine ⟨r2, ?_, ?_⟩
  · rw [dispatch_state]
    exact rep_clear _ _ _ hrep2
  · rw [ht2]
    simp [Nat.add_comm]

theorem pulled_nil (h : Handler) : pulled [] h = List.replicate h.pulls none := by
  unfold pulled
  apply List.ext_getElem
  · simp
  · intro j h1 h2
    simp

theorem ready_after_dispatch (P : Params) (s : State)
    (hlen : s.buffer.length = P.SERIALCOMMAND_BUFFER + 1) : Ready P (dispatch P s).1 := by
  refine ⟨?_, dispatch_bufPos P s, dispatch_head P s ?_⟩
  · rw [(dispatch_frame P s).2.2.2.2.2.2.2]; exact hlen
  · intro h0; rw [h0] at hlen; simp at hlen

/-! ## The registry -/

theorem applyOp_commandCount (P : Params) (s : State) (op : Op)
    (h : s.commandCount ≤ P.SERIALCOMMAND_MAXCOMMANDCOUNT) :
    (applyOp P s op).commandCount ≤ P.SERIALCOMMAND_MAXCOMMANDCOUNT := by
  cases op with
  | addCommand command function =>
    simp only [applyOp, addCommand]
    split
    · exact h
    · simp only []; omega
  | setDefaultHandler function => exact h
  | setNullHandler function => exact h
  | readSerial input =>
    simp only [applyOp]
    rw [(readSerial_frame P s input).2.1]
    exact h
  | next => exact h
  | clearBuffer => exact h

theorem applyOps_commandCount (P : Params) (s : State) (ops : List Op)
    (h : s.commandCount ≤ P.SERIALCOMMAND_MAXCOMMANDCOUNT) :
    (applyOps P s ops).commandCount ≤ P.SERIALCOMMAND_MAXCOMMANDCOUNT := by
  induction ops generalizing s with
  | nil => exact h
  | cons op ops ih => exact ih (applyOp P s op) (applyOp_commandCount P s op h)

/-! ## Counting dispatch cycles -/

theorem isTerm_frame (s t : State) (h : Frame s t) (c : Nat) : isTerm t c = isTerm s c := by
  unfold isTerm
  rw [h.2.2.2.2.2.1, h.2.2.2.2.2.2.1]

theorem readByte_cycles (P : Params) (s : State) (c : Nat) :
    (readByte P s c).2.length = if isTerm s c = true then 1 else 0 := by
  unfold readByte isTerm
  by_cases h : c = s.term ∨ c = s.term2
  · simp [h]
  · simp only [if_neg h, decide_eq_true_eq]
    split <;> (try split) <;> (try split) <;> rfl

theorem dispatch_call_isSome (P : Params) (s : State)
    (hd : s.defaultHandler.isSome = true) (hn : s.nullHandler.isSome = true) :
    (dispatch P s).2.call.isSome = true := by
  unfold dispatch
  simp only []
  split
  · split
    · rfl
    · split
      · rfl
      · rename_i h; rw [h] at hd; exact hd
  · split
    · rfl
    · rename_i h; rw [h] at hn; exact hn

theorem readByte_calls (P : Params) (s : State) (c : Nat)
    (hd : s.defaultHandler.isSome = true) (hn : s.nullHandler.isSome = true) :
    ((readByte P s c).2.filter (fun cy => cy.call.isSome)).length =
      if isTerm s c = true then 1 else 0 := by
  unfold readByte isTerm
  by_cases h : c = s.term ∨ c = s.term2
  · simp [h, dispatch_call_isSome P s hd hn]
  · simp only [if_neg h, decide_eq_true_eq]
    split <;> (try split) <;> (try split) <;> rfl

theorem readSerial_cycles (P : Params) (s : State) (input : List Nat) :
    (readSerial P s input).2.length = input.countP (isTerm s) := by
  induction input generalizing s with
  | nil => rfl
  | cons c cs ih =>
    simp only [readSerial, List.length_append, ih, readByte_cycles, List.countP_cons]
    have hf : isTerm (readByte P s c).1 = isTerm s :=
      funext (isTerm_frame s _ (readByte_frame P s c))
    rw [hf]
    omega

theorem readSerial_calls (P : Params) (s : State) (input : List Nat)
    (hd : s.defaultHandler.isSome = true) (hn : s.nullHandler.isSome = true) :
    ((readSerial P s input).2.filter (fun cy => cy.call.isSome)).length =
      input.countP (isTerm s) := by
  induction input generalizing s with
  | nil => rfl
  | cons c cs ih =>
    have hfr := readByte_frame P s c
    have hd1 : (readByte P s c).1.defaultHandler.isSome = true := by
      rw [hfr.2.2.1]; exact hd
    have hn1 : (readByte P s c).1.nullHandler.isSome = true := by
      rw [hfr.2.2.2.1]; exact hn
    simp only [readSerial, List.filter_append, List.length_append, ih _ hd1 hn1,
      readByte_calls P s c hd hn, List.countP_cons]
    have hf : isTerm (readByte P s c).1 = isTerm s :=
      funext (isTerm_frame s _ hfr)
    rw [hf]
    omega

/-! ## Comparing a token with a stored name -/

theorem cstr_of_nulFree (r : List Nat) (h : NulFree r) : cstr r = r := by
  unfold cstr
  rw [List.takeWhile_eq_self_iff]
  intro c hc
  simpa using h c hc

theorem strncpy_nil (n : Nat) : strncpy [] n = List.replicate n 0 := by
  simp [strncpy, cstr]

theorem strncpy_cons (y : Nat) (b : List Nat) (n : Nat) (hy : y ≠ 0) :
    strncpy (y :: b) (n + 1) = y :: strncpy b n := by
  have hc : cstr (y :: b) = y :: cstr b := by simp [cstr, hy]
  simp [strncpy, hc]

/-- A token compares equal to a stored name exactly when the two agree on their first
`n` bytes as strings. -/
theorem strncmp_strncpy (a b : List Nat) (n : Nat) (ha : NulFree a) (hb : NulFree b) :
    strncmp a (strncpy b n) n = 0 ↔ a.take n = b.take n := by
  induction n generalizing a b with
  | zero => simp [strncmp]
  | succ n ih =>
    cases b with
    | nil =>
      rw [strncpy_nil]
      cases a with
      | nil => simp [strncmp, List.replicate_succ]
      | cons x a =>
        have hx : x ≠ 0 := ha x (List.mem_cons_self x a)
        simp only [strncmp, List.replicate_succ, List.headD_cons, ne_eq, hx,
          not_false_eq_true, if_true, List.take_succ_cons, List.take_nil]
        constructor
        · intro h; exfalso; omega
        · intro h; exact absurd h (by simp)
    | cons y b =>
      have hy : y ≠ 0 := hb y (List.mem_cons_self y b)
      have hb1 : NulFree b := fun c hc => hb c (List.mem_cons_of_mem y hc)
      rw [strncpy_cons y b n hy]
      cases a with
      | nil =>
        simp only [strncmp, List.headD_nil, List.headD_cons, ne_eq, List.take_nil,
          List.take_succ_cons]
        rw [if_pos (fun h => hy h.symm)]
        constructor
        · intro h; exfalso; omega
        · intro h; exact absurd h (by simp)
      | cons x a =>
        have hx : x ≠ 0 := ha x (List.mem_cons_self x a)
        have ha1 : NulFree a := fun c hc => ha c (List.mem_cons_of_mem x hc)
        simp only [strncmp, List.headD_cons, List.tail_cons, ne_eq, List.take_succ_cons]
        by_cases hxy : x = y
        · subst hxy
          simp only [not_true_eq_false, if_false, hx, List.cons.injEq, true_and]
          exact ih a b ha1 hb1
        · simp only [hxy, not_false_eq_true, if_true, List.cons.injEq, false_and, iff_false]
          omega

theorem findCommand_hit (n : Nat) (name : List Nat) (es : List SerialCommandCallback)
    (i k : Nat) (hk : k < es.length) (hit : strncmp name es[k].command n = 0)
    (hmiss : ∀ j (hj : j < es.length), j < k → strncmp name es[j].command n ≠ 0) :
    findCommand n name es i = some (i + k, es[k].function) := by
  induction es generalizing i k with
  | nil => simp at hk
  | cons e es ih =>
    cases k with
    | zero =>
      simp only [List.getElem_cons_zero] at hit
      simp [findCommand, hit]
    | succ k =>
      have h0 := hmiss 0 (by simp) (Nat.succ_pos k)
      simp only [List.getElem_cons_zero] at h0
      simp only [findCommand, h0, if_false, List.getElem_cons_succ]
      have hk1 : k < es.length := by simpa using hk
      rw [ih (i + 1) k hk1 (by simpa using hit)
        (fun j hj hjk => by
          have := hmiss (j + 1) (by simpa using hj) (by omega)
          simpa using this)]
      congr 2
      omega

theorem findCommand_miss (n : Nat) (name : List Nat) (es : List SerialCommandCallback)
    (i : Nat) (hmiss : ∀ e ∈ es, strncmp name e.command n ≠ 0) :
    findCommand n name es i = none := by
  induction es generalizing i with
  | nil => rfl
  | cons e es ih =>
    have h0 := hmiss e (List.mem_cons_self e es)
    simp only [findCommand, h0, if_false]
    exact ih (i + 1) (fun e1 h1 => hmiss e1 (List.mem_cons_of_mem e h1))

theorem findCommand_isSome (n : Nat) (name : List Nat) (es : List SerialCommandCallback)
    (i : Nat) (r : Nat × Handler) (h : findCommand n name es i = some r) :
    ∃ k, ∃ hk : k < es.length, r = (i + k, es[k].function) ∧
      strncmp name es[k].command n = 0 ∧
      ∀ j (hj : j < es.length), j < k → strncmp name es[j].command n ≠ 0 := by
  induction es generalizing i with
  | nil => simp [findCommand] at h
  | cons e es ih =>
    by_cases h0 : strncmp name e.command n = 0
    · simp only [findCommand, h0, if_true, Option.some.injEq] at h
      refine ⟨0, by simp, by simpa using h.symm, by simpa using h0, ?_⟩
      intro j _ hj0
      omega
    · simp only [findCommand, h0, if_false] at h
      obtain ⟨k, hk, hr, hit, hmiss⟩ := ih (i + 1) h
      refine ⟨k + 1, by simpa using hk, ?_, by simpa using hit, ?_⟩
      · rw [hr]
        simp only [List.getElem_cons_succ, Prod.mk.injEq, and_true]
        omega
      · intro j hj hjk
        cases j with
        | zero => simpa using h0
        | succ j =>
          have := hmiss j (by simpa using hj) (by omega)
          simpa using this

theorem take_set_succ (l : List SerialCommandCallback) (n : Nat)
    (e : SerialCommandCallback) (h : n < l.length) :
    (l.set n e).take (n + 1) = l.take n ++ [e] := by
  induction l generalizing n with
  | nil => simp at h
  | cons a l ih =>
    cases n with
    | zero => simp
    | succ n =>
      have h1 : n < l.length := by simpa using h
      simp [ih n h1]

/-- The valid part of the registry after a sequence of `addCommand` calls: the entries
that were there, then the entries of as many calls as still fitted, in call order. -/
theorem addCommands_registry (P : Params) (s : State) (cmds : List (List Nat × Handler))
    (hl : s.commandList.length = P.SERIALCOMMAND_MAXCOMMANDCOUNT)
    (hc : s.commandCount ≤ P.SERIALCOMMAND_MAXCOMMANDCOUNT) :
    (addCommands P s cmds).commandList.take (addCommands P s cmds).commandCount =
      s.commandList.take s.commandCount ++
        (cmds.take (P.SERIALCOMMAND_MAXCOMMANDCOUNT - s.commandCount)).map (entryOf P) := by
  induction cmds generalizing s with
  | nil => simp [addCommands]
  | cons c cs ih =>
    have hstep : addCommands P s (c :: cs) = addCommands P (addCommand P s c.1 c.2) cs := rfl
    rw [hstep]
    by_cases hfull : s.commandCount ≥ P.SERIALCOMMAND_MAXCOMMANDCOUNT
    · have hsame : addCommand P s c.1 c.2 = s := by
        unfold addCommand; rw [if_pos hfull]
      rw [hsame, ih s hl hc]
      have hz : P.SERIALCOMMAND_MAXCOMMANDCOUNT - s.commandCount = 0 := by omega
      rw [hz]
      simp
    · have hadd : addCommand P s c.1 c.2 =
          { s with
            commandList := s.commandList.set s.commandCount (entryOf P c)
            commandCount := s.commandCount + 1 } := by
        unfold addCommand; rw [if_neg hfull]; rfl
      rw [hadd, ih _ (by simpa using hl) (by simp only []; omega)]
      simp only []
      rw [take_set_succ _ _ _ (by omega)]
      have hs : P.SERIALCOMMAND_MAXCOMMANDCOUNT - s.commandCount =
          (P.SERIALCOMMAND_MAXCOMMANDCOUNT - (s.commandCount + 1)) + 1 := by omega
      rw [hs, List.take_succ_cons]
      simp

theorem ctor_registry (P : Params) (raw : List Nat) :
    (ctor P raw).commandList.length = P.SERIALCOMMAND_MAXCOMMANDCOUNT ∧
    (ctor P raw).commandCount = 0 := by
  simp [ctor, clearBuffer]

/-- Looking up the name of the `k`-th of a sequence of registrations with pairwise
different names in a registry that kept the first `SERIALCOMMAND_MAXCOMMANDCOUNT` of
them. -/
theorem registry_lookup (P : Params) (cmds : List (List Nat × Handler)) (k : Nat)
    (hk : k < cmds.length)
    (hprint : ∀ c ∈ cmds, ∀ x ∈ c.1, isprint x = true)
    (hnodup : (cmds.map (fun c => c.1.take P.SERIALCOMMAND_MAXCOMMANDLENGTH)).Nodup) :
    findCommand P.SERIALCOMMAND_MAXCOMMANDLENGTH cmds[k].1
        ((cmds.take P.SERIALCOMMAND_MAXCOMMANDCOUNT).map (entryOf P)) 0 =
      if k < P.SERIALCOMMAND_MAXCOMMANDCOUNT then some (k, cmds[k].2) else none := by
  have hnf : ∀ j (hj : j < cmds.length), NulFree cmds[j].1 := by
    intro j hj x hx
    exact isprint_ne_zero x (hprint cmds[j] (List.getElem_mem hj) x hx)
  have hes : ∀ j (hj : j < ((cmds.take P.SERIALCOMMAND_MAXCOMMANDCOUNT).map
      (entryOf P)).length),
      j < cmds.length ∧ j < P.SERIALCOMMAND_MAXCOMMANDCOUNT ∧
      ∃ hj2 : j < cmds.length,
        ((cmds.take P.SERIALCOMMAND_MAXCOMMANDCOUNT).map (entryOf P))[j] =
          entryOf P cmds[j] := by
    intro j hj
    have hj1 : j < P.SERIALCOMMAND_MAXCOMMANDCOUNT ∧ j < cmds.length := by
      simpa using hj
    exact ⟨hj1.2, hj1.1, hj1.2, by simp⟩
  have hmatch : ∀ j (hj : j < cmds.length),
      strncmp cmds[k].1 (entryOf P cmds[j]).command P.SERIALCOMMAND_MAXCOMMANDLENGTH = 0 ↔
        j = k := by
    intro j hj
    simp only [entryOf]
    rw [strncmp_strncpy _ _ _ (hnf k hk) (hnf j hj)]
    have hinj := @List.Nodup.getElem_inj_iff _ _ hnodup k (by simpa using hk) j
      (by simpa using hj)
    simp only [List.getElem_map] at hinj
    rw [hinj]
    exact eq_comm
  by_cases hkn : k < P.SERIALCOMMAND_MAXCOMMANDCOUNT
  · rw [if_pos hkn]
    have hkl : k < ((cmds.take P.SERIALCOMMAND_MAXCOMMANDCOUNT).map (entryOf P)).length := by
      simp; exact ⟨hkn, hk⟩
    have hek := (hes k hkl).2.2.2
    have := findCommand_hit P.SERIALCOMMAND_MAXCOMMANDLENGTH cmds[k].1 _ 0 k hkl
      (by rw [hek]; exact (hmatch k hk).mpr rfl)
      (fun j hj hjk => by
        obtain ⟨hj1, _, _, hej⟩ := hes j hj
        rw [hej]
        intro h0
        have := (hmatch j hj1).mp h0
        omega)
    rw [this, hek]
    simp [entryOf]
  · rw [if_neg hkn]
    apply findCommand_miss
    intro e he
    obtain ⟨j, hj, hje⟩ := List.getElem_of_mem he
    obtain ⟨hj1, hj2, _, hej⟩ := hes j hj
    rw [← hje, hej]
    intro h0
    have := (hmatch j hj1).mp h0
    omega

/-! ## The line assembler, byte by byte -/

theorem isprint_backspace (c : Nat) (hc : c = 127 ∨ c = 8) : isprint c = false := by
  rcases hc with h | h <;> subst h <;> rfl

/-- Backspace or delete removes the last byte of the line and re-terminates it; on the
empty line the state is unchanged.  No dispatch cycle runs and the token cursor is
untouched. -/
theorem readByte_backspace (P : Params) (s : State) (content : List Nat) (c : Nat)
    (h : Holds P s content) (hc : c = 127 ∨ c = 8)
    (hnt : ¬ (c = s.term ∨ c = s.term2)) :
    (readByte P s c).2 = [] ∧ Holds P (readByte P s c).1 content.dropLast ∧
    (readByte P s c).1.last = s.last ∧ (content = [] → (readByte P s c).1 = s) := by
  obtain ⟨hl, hp, hn, rest, hb⟩ := h
  have hnp : ¬ (isprint c = true) := by rw [isprint_backspace c hc]; simp
  unfold readByte
  rw [if_neg hnt, if_neg hnp, if_pos hc]
  split
  · rename_i hpos
    rcases List.eq_nil_or_concat content with h0 | ⟨init, x, h1⟩
    · rw [h0] at hp; exact absurd hp hpos
    · rw [List.concat_eq_append] at h1
      subst h1
      refine ⟨rfl, ⟨by simpa using hl, by simp [hp], ?_, 0 :: rest, ?_⟩, rfl, ?_⟩
      · intro y hy
        rw [List.dropLast_concat] at hy
        exact hn y (List.mem_append_left _ hy)
      · simp only [hp, hb, List.length_append, List.length_singleton, Nat.add_sub_cancel,
          List.dropLast_concat]
        simp [List.append_assoc]
      · intro h0
        simp at h0
  · rename_i hpos
    have h0 : content = [] := by
      have : content.length = 0 := by rw [← hp]; omega
      exact List.length_eq_zero.mp this
    subst h0
    exact ⟨rfl, ⟨hl, hp, hn, rest, hb⟩, rfl, fun _ => rfl⟩

/-- A byte that is no terminator, not printable and neither backspace nor delete is
ignored. -/
theorem readByte_other (P : Params) (s : State) (c : Nat)
    (hnt : ¬ (c = s.term ∨ c = s.term2)) (hnp : isprint c = false)
    (hnb : ¬ (c = 127 ∨ c = 8)) : readByte P s c = (s, []) := by
  unfold readByte
  rw [if_neg hnt, if_neg (by rw [hnp]; simp), if_neg hnb]

theorem lineCycle_received (P : Params) (s : State) (line : List Nat) :
    (lineCycle P s line).received = line := by
  unfold lineCycle
  split
  · split <;> rfl
  · split
    · rfl
    · split <;> rfl

/-- One byte of input moves the line held by the buffer as the specification says, and
runs the dispatch cycle of the specification when it is a terminator. -/
theorem readByte_step (P : Params) (s : State) (content : List Nat) (c : Nat)
    (h : Holds P s content) :
    Holds P (readByte P s c).1 (lineAfter P s content c) ∧
    (readByte P s c).2 =
      if c = s.term ∨ c = s.term2 then [lineCycle P s content] else [] := by
  unfold lineAfter
  by_cases ht : c = s.term ∨ c = s.term2
  · rw [if_pos ht, if_pos ht, readByte_term P s c ht]
    exact ⟨holds_of_ready P _ (ready_after_dispatch P s h.1), by
      rw [dispatch_spec P s content h]⟩
  · rw [if_neg ht, if_neg ht]
    by_cases hp : isprint c = true
    · rw [if_pos hp]
      have hle := holds_length_le P s content h
      obtain ⟨h1, h2, _⟩ := readByte_printable P s content c h hp
        ⟨fun e => ht (Or.inl e), fun e => ht (Or.inr e)⟩
      refine ⟨?_, h1⟩
      by_cases hlt : content.length < P.SERIALCOMMAND_BUFFER
      · rw [if_pos hlt]
        rw [List.take_of_length_le (by simp; omega)] at h2
        exact h2
      · rw [if_neg hlt]
        have heq : content.length = P.SERIALCOMMAND_BUFFER := by omega
        have htake : (content ++ [c]).take P.SERIALCOMMAND_BUFFER = content := by
          rw [← heq]; simp
        rw [htake] at h2
        exact h2
    · rw [if_neg hp]
      by_cases hb : c = 127 ∨ c = 8
      · rw [if_pos hb]
        obtain ⟨h1, h2, _, _⟩ := readByte_backspace P s content c h hb ht
        exact ⟨h2, h1⟩
      · rw [if_neg hb]
        have hp2 : isprint c = false := by simpa using hp
        rw [readByte_other P s c ht hp2 hb]
        exact ⟨h, rfl⟩

theorem lineAfter_frame (P : Params) (s t : State) (h : Frame s t) (content : List Nat)
    (c : Nat) : lineAfter P t content c = lineAfter P s content c := by
  unfold lineAfter
  rw [h.2.2.2.2.2.1, h.2.2.2.2.2.2.1]

theorem lineRun_frame (P : Params) (s t : State) (h : Frame s t) (content input : List Nat) :
    lineRun P t content input = lineRun P s content input := by
  induction input generalizing content with
  | nil => rfl
  | cons c cs ih =>
    simp only [lineRun, lineAfter_frame P s t h, lineCycle_frame P s t _ h, ih,
      h.2.2.2.2.2.1, h.2.2.2.2.2.2.1]

/-- Member `readSerial` refines the line assembler of the specification: from a buffer
holding `content` it runs the same dispatch cycles and ends with the buffer holding the
same line. -/
theorem readSerial_refines (P : Params) (s : State) (content input : List Nat)
    (h : Holds P s content) :
    Holds P (readSerial P s input).1 (lineRun P s content input).1 ∧
    (readSerial P s input).2 = (lineRun P s content input).2 := by
  induction input generalizing s content with
  | nil => exact ⟨h, rfl⟩
  | cons c cs ih =>
    obtain ⟨h1, h2⟩ := readByte_step P s content c h
    obtain ⟨i1, i2⟩ := ih (readByte P s c).1 _ h1
    rw [lineRun_frame P s _ (readByte_frame P s c)] at i1 i2
    exact ⟨by simpa only [readSerial, lineRun] using i1, by
      simp only [readSerial, lineRun, h2, i2]⟩

theorem lineAfter_lineBytes (P : Params) (s : State) (content : List Nat) (c : Nat)
    (h : LineBytes s content) : LineBytes s (lineAfter P s content c) := by
  unfold lineAfter
  by_cases ht : c = s.term ∨ c = s.term2
  · rw [if_pos ht]
    intro x hx; simp at hx
  · rw [if_neg ht]
    by_cases hp : isprint c = true
    · rw [if_pos hp]
      split
      · intro x hx
        rcases List.mem_append.mp hx with h1 | h1
        · exact h x h1
        · simp at h1
          subst h1
          exact ⟨hp, fun e => ht (Or.inl e), fun e => ht (Or.inr e)⟩
      · exact h
    · rw [if_neg hp]
      split
      · intro x hx
        exact h x (List.mem_of_mem_dropLast hx)
      · exact h

/-- Every line the assembler of the specification holds or dispatches consists of
printable bytes that are not terminators, when the line it starts from does. -/
theorem lineRun_lineBytes (P : Params) (s : State) (content input : List Nat)
    (h : LineBytes s content) :
    LineBytes s (lineRun P s content input).1 ∧
    ∀ cy ∈ (lineRun P s content input).2, LineBytes s cy.received := by
  induction input generalizing content with
  | nil => exact ⟨h, fun cy hcy => by simp [lineRun] at hcy⟩
  | cons c cs ih =>
    obtain ⟨i1, i2⟩ := ih (lineAfter P s content c) (lineAfter_lineBytes P s content c h)
    refine ⟨i1, ?_⟩
    intro cy hcy
    simp only [lineRun] at hcy
    rcases List.mem_append.mp hcy with h1 | h1
    · split at h1
      · simp at h1
        rw [h1, lineCycle_received]
        exact h
      · simp at h1
    · exact i2 cy h1

theorem lineRun_append (P : Params) (s : State) (content xs ys : List Nat) :
    lineRun P s content (xs ++ ys) =
      ((lineRun P s (lineRun P s content xs).1 ys).1,
        (lineRun P s content xs).2 ++ (lineRun P s (lineRun P s content xs).1 ys).2) := by
  induction xs generalizing content with
  | nil => simp [lineRun]
  | cons c cs ih => simp [lineRun, ih, List.append_assoc]

theorem lineRun_line (P : Params) (s : State) (content w : List Nat)
    (hw : LineBytes s w) (hlen : (content ++ w).length ≤ P.SERIALCOMMAND_BUFFER) :
    lineRun P s content w = (content ++ w, []) := by
  induction w generalizing content with
  | nil => simp [lineRun]
  | cons c cs ih =>
    have hc := hw c (List.mem_cons_self c cs)
    have hnt : ¬ (c = s.term ∨ c = s.term2) := by
      intro h; rcases h with h | h
      · exact hc.2.1 h
      · exact hc.2.2 h
    have hlt : content.length < P.SERIALCOMMAND_BUFFER := by
      simp at hlen; omega
    have hstep : lineAfter P s content c = content ++ [c] := by
      unfold lineAfter
      rw [if_neg hnt, if_pos hc.1, if_pos hlt]
    have := ih (content ++ [c]) (fun x hx => hw x (List.mem_cons_of_mem c hx))
      (by simpa [List.append_assoc] using hlen)
    simp only [lineRun, hstep, this, if_neg hnt]
    simp

theorem dispatch_received (P : Params) (s : State) :
    (dispatch P s).2.received = cstr s.buffer := by
  unfold dispatch
  simp only []
  split
  · split
    · rfl
    · split <;> rfl
  · split <;> rfl

theorem ctor_ready (P : Params) (raw : List Nat) : Ready P (ctor P raw) := by
  obtain ⟨h1, _, h3⟩ := ctor_bufInv P raw
  refine ⟨h1, rfl, ?_⟩
  rw [List.head?_eq_getElem?]
  exact h3

/-! ## Invariants over the public interface -/

theorem strtok_r_zero (f : Bool) (mem : List Nat) (str : Option Nat) (d : List Nat)
    (last : Option Nat) (p : Nat) (h : mem[p]? = some 0) :
    (strtok_r f mem str d last).2.1[p]? = some 0 := by
  unfold strtok_r
  split
  · exact h
  · simp only []
    split
    · exact h
    · split
      · exact h
      · simp only []
        rw [List.getElem?_set]
        split
        · rename_i heq
          have hp : p < mem.length := by
            by_contra hge
            rw [List.getElem?_eq_none (by omega)] at h
            exact absurd h (by simp)
          rw [if_pos (by omega)]
        · exact h

theorem next_bufInv (P : Params) (s : State) (h : BufInv P s) : BufInv P (next P s).2 := by
  obtain ⟨h1, h2, h3⟩ := h
  refine ⟨?_, h2, ?_⟩
  · rw [(next_frame P s).2.2.2.2.2.2.2]; exact h1
  · exact strtok_r_zero _ _ _ _ _ _ h3

theorem pull_bufInv (P : Params) (k : Nat) (s : State) (h : BufInv P s) :
    BufInv P (pull P k s).2 := by
  induction k generalizing s with
  | zero => exact h
  | succ k ih => exact ih (next P s).2 (next_bufInv P s h)

theorem clearBuffer_bufInv (P : Params) (s : State)
    (h : s.buffer.length = P.SERIALCOMMAND_BUFFER + 1) : BufInv P (clearBuffer s) := by
  refine ⟨by simpa [clearBuffer] using h, Nat.zero_le _, ?_⟩
  simp only [clearBuffer]
  rw [List.getElem?_set_self (by omega)]

theorem addCommand_buffer (P : Params) (s : State) (command : List Nat) (f : Handler) :
    (addCommand P s command f).buffer = s.buffer ∧
    (addCommand P s command f).bufPos = s.bufPos ∧
    (addCommand P s command f).term = s.term ∧
    (addCommand P s command f).term2 = s.term2 := by
  unfold addCommand
  split <;> exact ⟨rfl, rfl, rfl, rfl⟩

/-- The buffer bound holds in every state that the public interface reaches from a
state where it holds. -/
theorem applyOp_bufInv (P : Params) (s : State) (op : Op) (h : BufInv P s) :
    BufInv P (applyOp P s op) := by
  cases op with
  | addCommand command function =>
    obtain ⟨b1, b2, _, _⟩ := addCommand_buffer P s command function
    simp only [applyOp]
    unfold BufInv
    rw [b1, b2]
    exact h
  | setDefaultHandler function => exact h
  | setNullHandler function => exact h
  | readSerial input => exact readSerial_bufInv P s input h
  | next => exact next_bufInv P s h
  | clearBuffer => exact clearBuffer_bufInv P s h.1

theorem applyOps_bufInv (P : Params) (s : State) (ops : List Op) (h : BufInv P s) :
    BufInv P (applyOps P s ops) := by
  induction ops generalizing s with
  | nil => exact h
  | cons op ops ih => exact ih (applyOp P s op) (applyOp_bufInv P s op h)

theorem getElem?_append_length (pre : List Nat) (x : Nat) (b : List Nat) :
    (pre ++ x :: b)[pre.length]? = some x := by
  induction pre with
  | nil => simp
  | cons a pre ih => simpa using ih

theorem holds_bufInv (P : Params) (s : State) (content : List Nat) (h : Holds P s content) :
    BufInv P s := by
  have hle := holds_length_le P s content h
  obtain ⟨h1, h2, _, rest, h4⟩ := h
  refine ⟨h1, by omega, ?_⟩
  rw [h2, h4]
  exact getElem?_append_length content 0 rest

theorem applyOp_holds (P : Params) (s : State) (op : Op) (hop : op ≠ Op.next)
    (h : ∃ content, Holds P s content ∧ LineBytes s content) :
    ∃ content, Holds P (applyOp P s op) content ∧ LineBytes (applyOp P s op) content := by
  obtain ⟨content, hh, hb⟩ := h
  cases op with
  | addCommand command function =>
    obtain ⟨b1, b2, b3, b4⟩ := addCommand_buffer P s command function
    refine ⟨content, ?_, ?_⟩
    · simp only [applyOp]
      unfold Holds
      rw [b1, b2]
      exact hh
    · simp only [applyOp]
      unfold LineBytes
      rw [b3, b4]
      exact hb
  | setDefaultHandler function => exact ⟨content, hh, hb⟩
  | setNullHandler function => exact ⟨content, hh, hb⟩
  | readSerial input =>
    obtain ⟨r1, _⟩ := readSerial_refines P s content input hh
    have hf := readSerial_frame P s input
    refine ⟨_, r1, ?_⟩
    have := (lineRun_lineBytes P s content input hb).1
    simp only [applyOp]
    unfold LineBytes at this ⊢
    rw [hf.2.2.2.2.2.1, hf.2.2.2.2.2.2.1]
    exact this
  | next => exact absurd rfl hop
  | clearBuffer =>
    refine ⟨[], ?_, fun x hx => by simp at hx⟩
    have hb0 := clearBuffer_bufInv P s hh.1
    apply holds_of_ready
    refine ⟨hb0.1, rfl, ?_⟩
    rw [List.head?_eq_getElem?]
    exact hb0.2.2

/-- Every state reached from a fresh object through registrations, `clearBuffer` and
`readSerial` holds a line of printable bytes that are not terminators. -/
theorem applyOps_holds (P : Params) (s : State) (ops : List Op)
    (hops : ∀ op ∈ ops, op ≠ Op.next)
    (h : ∃ content, Holds P s content ∧ LineBytes s content) :
    Holds P (applyOps P s ops) (cstr (applyOps P s ops).buffer) ∧
    LineBytes (applyOps P s ops) (cstr (applyOps P s ops).buffer) := by
  induction ops generalizing s with
  | nil =>
    obtain ⟨content, hh, hb⟩ := h
    have hc := holds_cstr P s content hh
    simp only [applyOps, List.foldl_nil]
    rw [hc]
    exact ⟨hh, hb⟩
  | cons op ops ih =>
    exact ih (applyOp P s op) (fun o ho => hops o (List.mem_cons_of_mem op ho))
      (applyOp_holds P s op (hops op (List.mem_cons_self op ops)) h)

/-! ## The contract -/

/-- C1: Buffer bound of `readSerial`.  From every state `s` that satisfies the bound,
whatever its registry and handlers, after every byte of every input (that is, after
every initial segment `input.take k`, the handlers of the cycles having run with their
`next()` calls) `bufPos` is at most `SERIALCOMMAND_BUFFER`, the buffer still has its
`SERIALCOMMAND_BUFFER + 1` cells, and the cell `buffer[bufPos]` is the NUL byte.  The
bound holds in the freshly constructed object and in every state reached from it
through the public interface: registrations, handler setters, earlier `readSerial`
calls, `next()` and `clearBuffer`. -/
theorem readSerial_buffer_bound (P : Params) (s : State) (input : List Nat) (k : Nat)
    (h : BufInv P s) :
    ((readSerial P s (input.take k)).1.bufPos ≤ P.SERIALCOMMAND_BUFFER ∧
      (readSerial P s (input.take k)).1.buffer.length = P.SERIALCOMMAND_BUFFER + 1 ∧
      (readSerial P s (input.take k)).1.buffer[
        (readSerial P s (input.take k)).1.bufPos]? = some 0) ∧
    (∀ (raw : List Nat) (ops : List Op), BufInv P (applyOps P (ctor P raw) ops)) := by
  obtain ⟨h1, h2, h3⟩ := readSerial_bufInv P s (input.take k) h
  exact ⟨⟨h2, h1, h3⟩, fun raw ops => applyOps_bufInv P _ ops (ctor_bufInv P raw)⟩

/-- C2: Tokenize-and-pull contract.  A line of at most `SERIALCOMMAND_BUFFER` printable
bytes, fed into the empty buffer and closed by a terminator, whose first token `name`
is found in the registry at index `i` with handler `h`, runs one dispatch cycle that
calls `h` once; the `j`-th `next()` call of `h` returns the `j`-th remaining token
`ts[j]` of the line, and `NULL` (`none`) once `j` is past the last one. -/
theorem readSerial_tokenize_and_pull (P : Params) (s : State) (line : List Nat) (t : Nat)
    (name : List Nat) (ts : List (List Nat)) (i : Nat) (h : Handler)
    (hs : Ready P s) (hl : LineBytes s line)
    (hlen : line.length ≤ P.SERIALCOMMAND_BUFFER) (ht : t = s.term ∨ t = s.term2)
    (htok : tokens s.delim line = name :: ts)
    (hfind : findCommand P.SERIALCOMMAND_MAXCOMMANDLENGTH name
      (s.commandList.take s.commandCount) 0 = some (i, h)) :
    (readSerial P s (line ++ [t])).2 =
      [⟨line, some (Call.command i h), (List.range h.pulls).map (fun j => ts[j]?)⟩] := by
  rw [readSerial_line_term P s line t hs hl hlen ht]
  simp only [lineCycle, htok, hfind, pulled]

/-- C3: Unmatched-command dispatch.  A line whose first token `name` is found in no
entry of the registry, with a default handler `h` registered, runs one dispatch cycle
that calls `h` once with the whole token `name` as argument; no command handler and no
null handler is called. -/
theorem readSerial_unmatched_default (P : Params) (s : State) (line : List Nat) (t : Nat)
    (name : List Nat) (ts : List (List Nat)) (h : Handler)
    (hs : Ready P s) (hl : LineBytes s line)
    (hlen : line.length ≤ P.SERIALCOMMAND_BUFFER) (ht : t = s.term ∨ t = s.term2)
    (htok : tokens s.delim line = name :: ts)
    (hfind : findCommand P.SERIALCOMMAND_MAXCOMMANDLENGTH name
      (s.commandList.take s.commandCount) 0 = none)
    (hdef : s.defaultHandler = some h) :
    (readSerial P s (line ++ [t])).2 =
      [⟨line, some (Call.defaultHandler h name),
        (List.range h.pulls).map (fun j => ts[j]?)⟩] := by
  rw [readSerial_line_term P s line t hs hl hlen ht]
  simp only [lineCycle, htok, hfind, hdef, pulled]

/-- C4: Empty-line dispatch.  A line that is empty or consists of delimiters only, with
a null handler `h` registered, runs one dispatch cycle that calls `h` once, and neither
the default handler nor a command handler; every `next()` call of `h` returns `NULL`. -/
theorem readSerial_empty_line (P : Params) (s : State) (line : List Nat) (t : Nat)
    (h : Handler)
    (hs : Ready P s) (hl : LineBytes s line)
    (hlen : line.length ≤ P.SERIALCOMMAND_BUFFER) (ht : t = s.term ∨ t = s.term2)
    (hdelims : ∀ c ∈ line, isDelim s.delim c = true)
    (hnull : s.nullHandler = some h) :
    (readSerial P s (line ++ [t])).2 =
      [⟨line, some (Call.nullHandler h), List.replicate h.pulls none⟩] := by
  rw [readSerial_line_term P s line t hs hl hlen ht]
  have htok : tokens s.delim line = [] := by
    have := tokens_delims s.delim line [] hdelims
    rw [List.append_nil] at this
    rw [this, tokens_nil]
  simp only [lineCycle, htok, hnull, pulled]
  congr 2
  apply List.ext_getElem
  · simp
  · intro j h1 h2
    simp

/-- C5: One dispatch cycle per terminator byte.  For every state and input the number
of dispatch cycles equals the number of terminator bytes of the input; with a default
and a null handler registered so does the number of handler calls; and a line followed
by two terminators runs two cycles, the second on the empty line, calling the null
handler. -/
theorem readSerial_cycle_per_terminator (P : Params) (s : State) (input : List Nat) :
    (readSerial P s input).2.length = input.countP (isTerm s) ∧
    (s.defaultHandler.isSome = true → s.nullHandler.isSome = true →
      ((readSerial P s input).2.filter (fun cy => cy.call.isSome)).length =
        input.countP (isTerm s)) ∧
    (∀ (t1 t2 : Nat) (nh : Handler), Ready P s → LineBytes s input →
      input.length ≤ P.SERIALCOMMAND_BUFFER → isTerm s t1 = true → isTerm s t2 = true →
      s.nullHandler = some nh →
      ∃ c1, (readSerial P s (input ++ [t1, t2])).2 =
          [c1, ⟨[], some (Call.nullHandler nh), List.replicate nh.pulls none⟩] ∧
        c1.received = input) := by
  refine ⟨readSerial_cycles P s input, readSerial_calls P s input, ?_⟩
  intro t1 t2 nh hs hl hlen ht1 ht2 hnull
  have ht1p : t1 = s.term ∨ t1 = s.term2 := by simpa [isTerm] using ht1
  have ht2p : t2 = s.term ∨ t2 = s.term2 := by simpa [isTerm] using ht2
  have h1 := readSerial_line_term P s input t1 hs hl hlen ht1p
  have happ : input ++ [t1, t2] = (input ++ [t1]) ++ ([] ++ [t2]) := by simp
  rw [happ, readSerial_append, h1]
  simp only []
  have hf1 := readSerial_frame P s input
  have hlen1 := (readSerial_bufInv P s input ⟨hs.1, by rw [hs.2.1]; exact Nat.zero_le _, by
    rw [hs.2.1, ← List.head?_eq_getElem?]; exact hs.2.2⟩).1
  have hf2 := Frame.trans hf1 (dispatch_frame P (readSerial P s input).1)
  have hr2 := ready_after_dispatch P (readSerial P s input).1 hlen1
  have ht2q : t2 = (dispatch P (readSerial P s input).1).1.term ∨
      t2 = (dispatch P (readSerial P s input).1).1.term2 := by
    rw [hf2.2.2.2.2.2.1, hf2.2.2.2.2.2.2.1]; exact ht2p
  rw [readSerial_line_term P _ [] t2 hr2 (fun c hc => by simp at hc) (Nat.zero_le _) ht2q]
  rw [lineCycle_frame P s _ [] hf2]
  refine ⟨lineCycle P s input, ?_, ?_⟩
  · simp only [List.singleton_append, lineCycle, tokens_nil, hnull, pulled_nil]
  · unfold lineCycle
    split
    · split <;> rfl
    · split
      · rfl
      · split <;> rfl

/-- C6: Registry capacity.  Let the registry be the one that a sequence `cmds` of
`addCommand` calls leaves on a fresh object, the names being printable and pairwise
different within their first `SERIALCOMMAND_MAXCOMMANDLENGTH` bytes.  A line whose first
token is the name of registration `k` calls the handler of that registration when
`k < SERIALCOMMAND_MAXCOMMANDCOUNT`, and calls no command handler otherwise. -/
theorem readSerial_registry_capacity (P : Params) (raw : List Nat)
    (cmds : List (List Nat × Handler)) (s : State) (line : List Nat) (t k : Nat)
    (ts : List (List Nat)) (hk : k < cmds.length)
    (hlist : s.commandList = (addCommands P (ctor P raw) cmds).commandList)
    (hcount : s.commandCount = (addCommands P (ctor P raw) cmds).commandCount)
    (hprint : ∀ c ∈ cmds, ∀ x ∈ c.1, isprint x = true)
    (hnodup : (cmds.map (fun c => c.1.take P.SERIALCOMMAND_MAXCOMMANDLENGTH)).Nodup)
    (hs : Ready P s) (hl : LineBytes s line)
    (hlen : line.length ≤ P.SERIALCOMMAND_BUFFER) (ht : t = s.term ∨ t = s.term2)
    (htok : tokens s.delim line = cmds[k].1 :: ts) :
    (k < P.SERIALCOMMAND_MAXCOMMANDCOUNT →
      (readSerial P s (line ++ [t])).2 =
        [⟨line, some (Call.command k cmds[k].2),
          (List.range cmds[k].2.pulls).map (fun j => ts[j]?)⟩]) ∧
    (P.SERIALCOMMAND_MAXCOMMANDCOUNT ≤ k →
      ∃ cy, (readSerial P s (line ++ [t])).2 = [cy] ∧
        ∀ i h, cy.call ≠ some (Call.command i h)) := by
  have hreg : s.commandList.take s.commandCount =
      (cmds.take P.SERIALCOMMAND_MAXCOMMANDCOUNT).map (entryOf P) := by
    rw [hlist, hcount, addCommands_registry P (ctor P raw) cmds (ctor_registry P raw).1
      (by rw [(ctor_registry P raw).2]; exact Nat.zero_le _), (ctor_registry P raw).2]
    simp
  have hfind := registry_lookup P cmds k hk hprint hnodup
  rw [← hreg] at hfind
  rw [readSerial_line_term P s line t hs hl hlen ht]
  constructor
  · intro hkn
    rw [if_pos hkn] at hfind
    simp only [lineCycle, htok, hfind, pulled]
  · intro hkn
    rw [if_neg (by omega)] at hfind
    refine ⟨lineCycle P s line, rfl, ?_⟩
    intro i h
    simp only [lineCycle, htok, hfind]
    split <;> simp

/-- C7: `addCommand` beyond capacity is a silent no-op.  With the registry full,
`addCommand` returns the state unchanged; with room left it stores one entry at index
`commandCount`, increments `commandCount` and changes nothing else; and in every state
reachable from a fresh object through the public interface `commandCount` is at most
`SERIALCOMMAND_MAXCOMMANDCOUNT`. -/
theorem addCommand_capacity (P : Params) (s : State) (command : List Nat)
    (function : Handler) :
    (P.SERIALCOMMAND_MAXCOMMANDCOUNT ≤ s.commandCount →
      addCommand P s command function = s) ∧
    (s.commandCount < P.SERIALCOMMAND_MAXCOMMANDCOUNT →
      addCommand P s command function =
        { s with
          commandList := s.commandList.set s.commandCount
            ⟨strncpy command P.SERIALCOMMAND_MAXCOMMANDLENGTH, function⟩
          commandCount := s.commandCount + 1 } ∧
      (∀ i, i < s.commandCount →
        (addCommand P s command function).commandList[i]? = s.commandList[i]?) ∧
      (s.commandCount < s.commandList.length →
        (addCommand P s command function).commandList[s.commandCount]? =
          some ⟨strncpy command P.SERIALCOMMAND_MAXCOMMANDLENGTH, function⟩)) ∧
    (∀ (raw : List Nat) (ops : List Op),
      (applyOps P (ctor P raw) ops).commandCount ≤ P.SERIALCOMMAND_MAXCOMMANDCOUNT) := by
  refine ⟨?_, ?_, ?_⟩
  · intro h
    unfold addCommand
    rw [if_pos h]
  · intro h
    have hadd : addCommand P s command function =
        { s with
          commandList := s.commandList.set s.commandCount
            ⟨strncpy command P.SERIALCOMMAND_MAXCOMMANDLENGTH, function⟩
          commandCount := s.commandCount + 1 } := by
      unfold addCommand
      rw [if_neg (by omega)]
    refine ⟨hadd, ?_, ?_⟩
    · intro i hi
      rw [hadd]
      simp only []
      rw [List.getElem?_set_ne (by omega)]
    · intro hlt
      rw [hadd]
      simp only []
      rw [List.getElem?_set_self hlt]
  · intro raw ops
    apply applyOps_commandCount
    rw [(ctor_registry P raw).2]
    exact Nat.zero_le _

/-- C8 (as amended): Token cursor outside the dispatch window.  After the dispatch cycle
of a line, a `next()` call made outside any handler returns the first token of that
line that the cycle did not consume: with `n` the number of `next()` calls made by the
handler of the cycle, it returns token number `n + 1` of the line, and `NULL` exactly
when the line has no such token. -/
theorem next_after_cycle (P : Params) (s : State) (line : List Nat) (t : Nat)
    (hs : Ready P s) (hl : LineBytes s line)
    (hlen : line.length ≤ P.SERIALCOMMAND_BUFFER) (ht : t = s.term ∨ t = s.term2) :
    ∃ cy, (readSerial P s (line ++ [t])).2 = [cy] ∧
      tokenAt (next P (readSerial P s (line ++ [t])).1).2
          (next P (readSerial P s (line ++ [t])).1).1 =
        (tokens s.delim line)[cy.nexts.length + 1]? := by
  obtain ⟨_, h2, _⟩ := readSerial_line P s [] line (holds_of_ready P s hs) hl
  rw [List.nil_append, List.take_of_length_le hlen] at h2
  have hf := readSerial_frame P s line
  have hspec := dispatch_spec P _ line h2
  rw [lineCycle_frame P s _ line hf] at hspec
  obtain ⟨r, hrep, htoks⟩ := dispatch_cursor P _ line h2
  rw [hf.2.2.2.2.1, hspec] at htoks
  rw [readSerial_line_term P s line t hs hl hlen ht]
  refine ⟨lineCycle P s line, rfl, ?_⟩
  obtain ⟨hn, _⟩ := next_spec P (dispatch P (readSerial P s line).1).1 r hrep
  have hd : (dispatch P (readSerial P s line).1).1.delim = s.delim := by
    rw [(dispatch_frame P _).2.2.2.2.1, hf.2.2.2.2.1]
  rw [hd, htoks] at hn
  simp only []
  rw [hn]
  simp

/-- C9: Reset after every dispatch cycle.  For every state whose buffer is the array of
`SERIALCOMMAND_BUFFER + 1` cells and every terminator byte, whichever branch of the
cycle fires, the state afterwards has `bufPos = 0` and `buffer[0] = NUL`: the line
buffer holds the empty string. -/
theorem readByte_terminator_resets (P : Params) (s : State) (t : Nat)
    (hlen : s.buffer.length = P.SERIALCOMMAND_BUFFER + 1)
    (ht : t = s.term ∨ t = s.term2) :
    (readByte P s t).1.bufPos = 0 ∧ (readByte P s t).1.buffer[0]? = some 0 ∧
    cstr (readByte P s t).1.buffer = [] := by
  rw [readByte_term P s t ht]
  obtain ⟨_, h2, h3⟩ := ready_after_dispatch P s hlen
  simp only []
  refine ⟨h2, ?_, ?_⟩
  · rw [← List.head?_eq_getElem?]; exact h3
  · cases hb : (dispatch P s).1.buffer with
    | nil => rfl
    | cons x xs =>
      rw [hb] at h3
      simp at h3
      simp [cstr, h3]

/-- C10: Buffer-full drop policy.  Feeding printable bytes `w`, none a terminator, into
the empty buffer runs no dispatch cycle and leaves the line content equal to the first
`min |w| SERIALCOMMAND_BUFFER` bytes of `w`; once `SERIALCOMMAND_BUFFER` bytes were fed,
a further such byte `c` leaves the whole state unchanged; and the line dispatched at the
next terminator is that initial segment of `w`. -/
theorem readSerial_buffer_full_drop (P : Params) (s : State) (w : List Nat) (c t : Nat)
    (hs : Ready P s) (hw : LineBytes s w) (hc : LineBytes s [c])
    (ht : t = s.term ∨ t = s.term2) :
    (readSerial P s w).2 = [] ∧
    cstr (readSerial P s w).1.buffer = w.take P.SERIALCOMMAND_BUFFER ∧
    (readSerial P s w).1.bufPos = min w.length P.SERIALCOMMAND_BUFFER ∧
    (P.SERIALCOMMAND_BUFFER ≤ w.length →
      readByte P (readSerial P s w).1 c = ((readSerial P s w).1, [])) ∧
    (∃ cy, (readSerial P s (w ++ [t])).2 = [cy] ∧
      cy.received = w.take P.SERIALCOMMAND_BUFFER) := by
  obtain ⟨h1, h2, _⟩ := readSerial_line P s [] w (holds_of_ready P s hs) hw
  rw [List.nil_append] at h2
  have hf := readSerial_frame P s w
  have hpos : (readSerial P s w).1.bufPos = min w.length P.SERIALCOMMAND_BUFFER := by
    rw [h2.2.1, List.length_take, Nat.min_comm]
  refine ⟨h1, holds_cstr P _ _ h2, hpos, ?_, ?_⟩
  · intro hfull
    have hcc := hc c (List.mem_cons_self c [])
    have hnt : ¬ (c = (readSerial P s w).1.term ∨ c = (readSerial P s w).1.term2) := by
      rw [hf.2.2.2.2.2.1, hf.2.2.2.2.2.2.1]
      intro h; rcases h with h | h
      · exact hcc.2.1 h
      · exact hcc.2.2 h
    unfold readByte
    rw [if_neg hnt, if_pos hcc.1, if_neg (by rw [hpos]; omega)]
  · have ht2 : t = (readSerial P s w).1.term ∨ t = (readSerial P s w).1.term2 := by
      rw [hf.2.2.2.2.2.1, hf.2.2.2.2.2.2.1]; exact ht
    rw [readSerial_append, h1]
    simp only [readSerial, readByte_term P _ t ht2, List.nil_append, List.append_nil]
    refine ⟨_, rfl, ?_⟩
    rw [dispatch_spec P _ _ h2]
    unfold lineCycle
    split
    · split <;> rfl
    · split
      · rfl
      · split <;> rfl

/-- C11: Backspace handling.  In a state whose buffer holds the line `content`, a byte
`b` that is 8 or 127 and no terminator runs no cycle and leaves the buffer holding
`content` without its last byte, NUL-terminated at the new length; on the empty line
it changes nothing.  So a printable byte `c` fed while there is room, then `b`,
restores `content`; and from the empty buffer the input `pre`, `x`, `b`, `post`,
terminator dispatches the line `pre ++ post`. -/
theorem readByte_backspace_removes_last (P : Params) (s : State) (content : List Nat)
    (b : Nat) (h : Holds P s content) (hb : b = 8 ∨ b = 127)
    (hnt : b ≠ s.term ∧ b ≠ s.term2) :
    (readByte P s b).2 = [] ∧
    Holds P (readByte P s b).1 content.dropLast ∧
    (content = [] → readByte P s b = (s, [])) ∧
    (∀ c, content.length < P.SERIALCOMMAND_BUFFER → LineBytes s [c] →
      (readSerial P s [c, b]).2 = [] ∧ Holds P (readSerial P s [c, b]).1 content) ∧
    (∀ pre x post t, content = [] → LineBytes s (pre ++ x :: post) →
      (pre ++ x :: post).length ≤ P.SERIALCOMMAND_BUFFER → (t = s.term ∨ t = s.term2) →
      ∃ cy, (readSerial P s (pre ++ x :: b :: (post ++ [t]))).2 = [cy] ∧
        cy.received = pre ++ post) := by
  have hb2 : b = 127 ∨ b = 8 := hb.symm
  have hnt2 : ¬ (b = s.term ∨ b = s.term2) := by
    intro h0; rcases h0 with h0 | h0
    · exact hnt.1 h0
    · exact hnt.2 h0
  obtain ⟨h1, h2, _, h4⟩ := readByte_backspace P s content b h hb2 hnt2
  have hstepb : ∀ l, lineAfter P s l b = l.dropLast := by
    intro l
    unfold lineAfter
    rw [if_neg hnt2, if_neg (by rw [isprint_backspace b hb2]; simp), if_pos hb2]
  refine ⟨h1, h2, ?_, ?_, ?_⟩
  · intro h0
    exact Prod.ext (h4 h0) h1
  · intro c hlt hc
    obtain ⟨r1, r2⟩ := readSerial_refines P s content [c, b] h
    have hcc := hc c (List.mem_cons_self c [])
    have hntc : ¬ (c = s.term ∨ c = s.term2) := by
      intro h0; rcases h0 with h0 | h0
      · exact hcc.2.1 h0
      · exact hcc.2.2 h0
    have hstepc : lineAfter P s content c = content ++ [c] := by
      unfold lineAfter
      rw [if_neg hntc, if_pos hcc.1, if_pos hlt]
    have hrun : lineRun P s content [c, b] = (content, []) := by
      simp [lineRun, hstepc, hstepb, hntc, hnt2]
    rw [hrun] at r1 r2
    exact ⟨r2, r1⟩
  · intro pre x post t h0 hl hlen ht
    subst h0
    obtain ⟨_, r2⟩ := readSerial_refines P s [] (pre ++ x :: b :: (post ++ [t])) h
    have hpre : LineBytes s (pre ++ [x]) := by
      intro y hy
      apply hl y
      rcases List.mem_append.mp hy with h5 | h5
      · exact List.mem_append_left _ h5
      · simp at h5; subst h5; simp
    have hpost : LineBytes s post := by
      intro y hy
      exact hl y (List.mem_append_right _ (List.mem_cons_of_mem x hy))
    have hsplit : pre ++ x :: b :: (post ++ [t]) = (pre ++ [x]) ++ ([b] ++ (post ++ [t])) := by
      simp
    have hlen1 : ([] ++ (pre ++ [x])).length ≤ P.SERIALCOMMAND_BUFFER := by
      simp at hlen ⊢; omega
    have hlen2 : (pre ++ post).length ≤ P.SERIALCOMMAND_BUFFER := by
      simp at hlen ⊢; omega
    rw [r2, hsplit, lineRun_append, lineRun_line P s [] (pre ++ [x]) hpre hlen1,
      lineRun_append, lineRun_append, lineRun_line P s _ post hpost (by
        simp only [lineRun, hstepb]
        simpa using hlen2)]
    refine ⟨lineCycle P s (pre ++ post), ?_, lineCycle_received P s _⟩
    simp [lineRun, hstepb, hnt2, ht]

/-- C12: Silent drops when a handler is missing.  A line whose first token is found in
no registry entry while `defaultHandler` is `NULL`, or a line of delimiters only while
`nullHandler` is `NULL`, runs one cycle that calls no handler, and the cycle ends with
the line buffer reset to the empty string. -/
theorem readSerial_silent_drop (P : Params) (s : State) (line : List Nat) (t : Nat)
    (hs : Ready P s) (hl : LineBytes s line)
    (hlen : line.length ≤ P.SERIALCOMMAND_BUFFER) (ht : t = s.term ∨ t = s.term2)
    (hdrop :
      (∃ name ts, tokens s.delim line = name :: ts ∧
        findCommand P.SERIALCOMMAND_MAXCOMMANDLENGTH name
          (s.commandList.take s.commandCount) 0 = none ∧ s.defaultHandler = none) ∨
      ((∀ c ∈ line, isDelim s.delim c = true) ∧ s.nullHandler = none)) :
    (readSerial P s (line ++ [t])).2 = [⟨line, none, []⟩] ∧
    Ready P (readSerial P s (line ++ [t])).1 := by
  rw [readSerial_line_term P s line t hs hl hlen ht]
  constructor
  · rcases hdrop with ⟨name, ts, htok, hfind, hdef⟩ | ⟨hdelims, hnull⟩
    · simp only [lineCycle, htok, hfind, hdef]
    · have htok : tokens s.delim line = [] := by
        have := tokens_delims s.delim line [] hdelims
        rw [List.append_nil] at this
        rw [this, tokens_nil]
      simp only [lineCycle, htok, hnull]
  · apply ready_after_dispatch
    rw [(readSerial_frame P s line).2.2.2.2.2.2.2]
    exact hs.1

/-- C13: Lookup is a comparison bounded by `SERIALCOMMAND_MAXCOMMANDLENGTH`.  For the
entry `e` that `addCommand` stores for `name` and for a token at memory `a`, the test
of `readSerial` succeeds exactly when the first `L` bytes of the token and of the name
are equal as strings; for a name shorter than `L` that is when token and name are
equal. -/
theorem lookup_bounded_comparison (P : Params) (s : State) (name a : List Nat)
    (f : Handler) (e : SerialCommandCallback)
    (hroom : s.commandCount < P.SERIALCOMMAND_MAXCOMMANDCOUNT)
    (hcell : (addCommand P s name f).commandList[s.commandCount]? = some e) :
    e.function = f ∧
    (strncmp a e.command P.SERIALCOMMAND_MAXCOMMANDLENGTH = 0 ↔
      (cstr a).take P.SERIALCOMMAND_MAXCOMMANDLENGTH =
        (cstr name).take P.SERIALCOMMAND_MAXCOMMANDLENGTH) ∧
    ((cstr name).length < P.SERIALCOMMAND_MAXCOMMANDLENGTH →
      (strncmp a e.command P.SERIALCOMMAND_MAXCOMMANDLENGTH = 0 ↔ cstr a = cstr name)) := by
  have hadd : addCommand P s name f =
      { s with
        commandList := s.commandList.set s.commandCount
          ⟨strncpy name P.SERIALCOMMAND_MAXCOMMANDLENGTH, f⟩
        commandCount := s.commandCount + 1 } := by
    unfold addCommand
    rw [if_neg (by omega)]
  rw [hadd] at hcell
  simp only [] at hcell
  have he : e = ⟨strncpy name P.SERIALCOMMAND_MAXCOMMANDLENGTH, f⟩ := by
    by_cases hlt : s.commandCount < s.commandList.length
    · rw [List.getElem?_set_self hlt] at hcell
      exact (Option.some.inj hcell).symm
    · rw [List.getElem?_eq_none (by simpa using hlt)] at hcell
      exact absurd hcell (by simp)
  subst he
  have hcopy : strncpy name P.SERIALCOMMAND_MAXCOMMANDLENGTH =
      strncpy (cstr name) P.SERIALCOMMAND_MAXCOMMANDLENGTH := by
    unfold strncpy
    rw [cstr_of_nulFree (cstr name) (cstr_nulFree name)]
  have hiff : strncmp a (strncpy name P.SERIALCOMMAND_MAXCOMMANDLENGTH)
      P.SERIALCOMMAND_MAXCOMMANDLENGTH = 0 ↔
      (cstr a).take P.SERIALCOMMAND_MAXCOMMANDLENGTH =
        (cstr name).take P.SERIALCOMMAND_MAXCOMMANDLENGTH := by
    rw [← strncmp_cstr, hcopy]
    exact strncmp_strncpy (cstr a) (cstr name) _ (cstr_nulFree a) (cstr_nulFree name)
  refine ⟨rfl, hiff, ?_⟩
  intro hshort
  simp only []
  rw [hiff, List.take_of_length_le (Nat.le_of_lt hshort)]
  constructor
  · intro h
    have hlen : ((cstr a).take P.SERIALCOMMAND_MAXCOMMANDLENGTH).length =
        (cstr name).length := by rw [h]
    rw [List.length_take] at hlen
    rw [← h, List.take_of_length_le (by omega)]
  · intro h
    rw [h, List.take_of_length_le (Nat.le_of_lt hshort)]

/-- C14: First registered duplicate wins.  When the first token `name` of a line
compares equal to the registry entry at index `k` and to no entry before it, the cycle
of the line calls exactly the handler of entry `k`, once; being the only call of the
cycle, no later matching entry and no default handler is called. -/
theorem readSerial_first_match_wins (P : Params) (s : State) (line : List Nat) (t : Nat)
    (name : List Nat) (ts : List (List Nat)) (k : Nat)
    (hs : Ready P s) (hl : LineBytes s line)
    (hlen : line.length ≤ P.SERIALCOMMAND_BUFFER) (ht : t = s.term ∨ t = s.term2)
    (htok : tokens s.delim line = name :: ts)
    (hk : k < (s.commandList.take s.commandCount).length)
    (hit : strncmp name (s.commandList.take s.commandCount)[k].command
      P.SERIALCOMMAND_MAXCOMMANDLENGTH = 0)
    (hmin : ∀ j (hj : j < (s.commandList.take s.commandCount).length), j < k →
      strncmp name (s.commandList.take s.commandCount)[j].command
        P.SERIALCOMMAND_MAXCOMMANDLENGTH ≠ 0) :
    (readSerial P s (line ++ [t])).2 =
      [⟨line, some (Call.command k (s.commandList.take s.commandCount)[k].function),
        (List.range (s.commandList.take s.commandCount)[k].function.pulls).map
          (fun j => ts[j]?)⟩] := by
  have hfind := findCommand_hit P.SERIALCOMMAND_MAXCOMMANDLENGTH name
    (s.commandList.take s.commandCount) 0 k hk hit hmin
  rw [Nat.zero_add] at hfind
  rw [readSerial_line_term P s line t hs hl hlen ht]
  simp only [lineCycle, htok, hfind, pulled]

/-- C15: Terminator has priority.  Whatever `term` and `term2` are, a byte equal to one
of them runs exactly one dispatch cycle, on the line as it was before the byte (the byte
is neither appended nor does it remove a byte), and leaves `bufPos = 0`; and no line
dispatched after the buffer was empty contains a terminator byte. -/
theorem readByte_terminator_priority (P : Params) (s : State) (t : Nat)
    (ht : t = s.term ∨ t = s.term2) :
    (∃ cy, (readByte P s t).2 = [cy] ∧ cy.received = cstr s.buffer) ∧
    (readByte P s t).1.bufPos = 0 ∧
    (∀ input, Ready P s → ∀ cy ∈ (readSerial P s input).2, ∀ c ∈ cy.received,
      c ≠ s.term ∧ c ≠ s.term2) := by
  rw [readByte_term P s t ht]
  refine ⟨⟨(dispatch P s).2, rfl, dispatch_received P s⟩, dispatch_bufPos P s, ?_⟩
  intro input hs cy hcy c hc
  obtain ⟨_, r2⟩ := readSerial_refines P s [] input (holds_of_ready P s hs)
  rw [r2] at hcy
  have := (lineRun_lineBytes P s [] input (fun x hx => by simp at hx)).2 cy hcy c hc
  exact this.2

/-- C16: Other bytes are ignored.  A byte that is neither terminator, nor printable, nor
8 or 127 runs no cycle and returns the state unchanged in every member. -/
theorem readByte_ignores_other (P : Params) (s : State) (c : Nat)
    (h1 : c ≠ s.term) (h2 : c ≠ s.term2) (h3 : isprint c = false)
    (h4 : c ≠ 8) (h5 : c ≠ 127) :
    readByte P s c = (s, []) := by
  apply readByte_other P s c _ h3
  · intro h; rcases h with h | h
    · exact h5 h
    · exact h4 h
  · intro h; rcases h with h | h
    · exact h1 h
    · exact h2 h

/-- C17: Polling granularity does not matter.  Draining `xs ++ ys` in one `readSerial`
call gives the same final state and the same dispatch cycles, in order, as draining `xs`
in one call and `ys` in a second. -/
theorem readSerial_polling_granularity (P : Params) (s : State) (xs ys : List Nat) :
    (readSerial P s (xs ++ ys)).1 = (readSerial P (readSerial P s xs).1 ys).1 ∧
    (readSerial P s (xs ++ ys)).2 =
      (readSerial P s xs).2 ++ (readSerial P (readSerial P s xs).1 ys).2 := by
  rw [readSerial_append]
  exact ⟨rfl, rfl⟩

/-- C18: No leakage between lines.  Two objects with the same registry, handlers,
terminators and delimiters, both with the empty line in the buffer (stale bytes behind
it and the token cursor may differ), run the same dispatch cycles on the same input:
the same handler calls, default-handler arguments and `next()` results. -/
theorem readSerial_no_leakage (P : Params) (s1 s2 : State) (input : List Nat)
    (h1 : Ready P s1) (h2 : Ready P s2) (hf : Frame s1 s2) :
    (readSerial P s1 input).2 = (readSerial P s2 input).2 := by
  obtain ⟨_, r1⟩ := readSerial_refines P s1 [] input (holds_of_ready P s1 h1)
  obtain ⟨_, r2⟩ := readSerial_refines P s2 [] input (holds_of_ready P s2 h2)
  rw [r1, r2, lineRun_frame P s1 s2 hf]

/-- C19: Line content invariant.  From every state `s` whose buffer holds a line of
printable bytes that are not terminators, whatever its registry and handlers, after any
initial segment of any input the buffer holds a NUL-terminated string of length `bufPos`
whose bytes are printable and differ from `s.term` and `s.term2`; it is the line that
the line assembler of the specification accumulated, and the cycles run, each on the
line accumulated when its terminator arrived, received only such bytes.  Every state
reached from a fresh object through registrations, handler setters, `clearBuffer` and
`readSerial` is such a state. -/
theorem readSerial_line_content (P : Params) (s : State) (content input : List Nat)
    (k : Nat) (h : Holds P s content) (hb : LineBytes s content) :
    (readSerial P s (input.take k)).1.buffer[
      (readSerial P s (input.take k)).1.bufPos]? = some 0 ∧
    (cstr (readSerial P s (input.take k)).1.buffer).length =
      (readSerial P s (input.take k)).1.bufPos ∧
    (∀ c ∈ cstr (readSerial P s (input.take k)).1.buffer,
      isprint c = true ∧ c ≠ s.term ∧ c ≠ s.term2) ∧
    cstr (readSerial P s (input.take k)).1.buffer =
      (lineRun P s content (input.take k)).1 ∧
    (readSerial P s (input.take k)).2 = (lineRun P s content (input.take k)).2 ∧
    (∀ cy ∈ (readSerial P s (input.take k)).2, ∀ c ∈ cy.received,
      isprint c = true ∧ c ≠ s.term ∧ c ≠ s.term2) ∧
    (∀ (raw : List Nat) (ops : List Op), (∀ op ∈ ops, op ≠ Op.next) →
      Holds P (applyOps P (ctor P raw) ops) (cstr (applyOps P (ctor P raw) ops).buffer) ∧
      LineBytes (applyOps P (ctor P raw) ops)
        (cstr (applyOps P (ctor P raw) ops).buffer)) := by
  obtain ⟨r1, r2⟩ := readSerial_refines P s content (input.take k) h
  obtain ⟨b1, b2⟩ := lineRun_lineBytes P s content (input.take k) hb
  have hc := holds_cstr P _ _ r1
  refine ⟨(holds_bufInv P _ _ r1).2.2, ?_, ?_, hc, r2, ?_, ?_⟩
  · rw [hc, r1.2.1]
  · rw [hc]
    exact b1
  · rw [r2]
    exact b2
  · intro raw ops hops
    exact applyOps_holds P (ctor P raw) ops hops
      ⟨[], holds_of_ready P _ (ctor_ready P raw), fun x hx => by simp at hx⟩

/-! ## Instances of the contract -/

/-- Instance of C2: with `LED` registered, the input `LED 1` and a newline calls the
`LED` handler, whose first `next()` returns `1` and whose second returns `NULL`. -/
theorem readSerial_tokenize_and_pull_witness :
    (readSerial P0 sLED [76, 69, 68, 32, 49, 10]).2 =
      [⟨[76, 69, 68, 32, 49], some (Call.command 0 ⟨1, 2⟩), [some [49], none]⟩] :=
  readSerial_tokenize_and_pull P0 sLED [76, 69, 68, 32, 49] 10 [76, 69, 68] [[49]] 0 ⟨1, 2⟩
    (by decide) (by decide) (by decide) (Or.inl rfl) (by decide) (by decide)

/-- Instance of C3: the input `FOO` and a newline, with `FOO` unregistered, calls the
default handler with the argument `FOO`. -/
theorem readSerial_unmatched_default_witness :
    (readSerial P0 sDefault [70, 79, 79, 10]).2 =
      [⟨[70, 79, 79], some (Call.defaultHandler ⟨7, 0⟩ [70, 79, 79]), []⟩] :=
  readSerial_unmatched_default P0 sDefault [70, 79, 79] 10 [70, 79, 79] [] ⟨7, 0⟩
    (by decide) (by decide) (by decide) (Or.inl rfl) (by decide) (by decide) rfl

/-- Instance of C4: a newline on the empty buffer calls the null handler once. -/
theorem readSerial_empty_line_witness :
    (readSerial P1 sNull [10]).2 = [⟨[], some (Call.nullHandler ⟨8, 1⟩), [none]⟩] :=
  readSerial_empty_line P1 sNull [] 10 ⟨8, 1⟩
    (by decide) (by decide) (by decide) (Or.inl rfl) (by decide) rfl

/-- Instance of C5: three terminators give three handler calls, and `A` followed by a
carriage return and a newline gives a second cycle that calls the null handler. -/
theorem readSerial_cycle_per_terminator_witness :
    ((readSerial P0 sBoth [65, 10, 13, 66, 32, 67, 13]).2.filter
        (fun cy => cy.call.isSome)).length = 3 ∧
    ∃ c1, (readSerial P0 sBoth [65, 13, 10]).2 =
        [c1, ⟨[], some (Call.nullHandler ⟨8, 1⟩), [none]⟩] ∧ c1.received = [65] :=
  ⟨(readSerial_cycle_per_terminator P0 sBoth [65, 10, 13, 66, 32, 67, 13]).2.1 rfl rfl,
    (readSerial_cycle_per_terminator P0 sBoth [65]).2.2 13 10 ⟨8, 1⟩
      (by decide) (by decide) (by decide) rfl rfl rfl⟩

/-- Instance of C6: of three registrations in a registry of two cells, the second is
found and the third is not. -/
theorem readSerial_registry_capacity_witness :
    (readSerial P0 sThree [66, 32, 49, 10]).2 =
      [⟨[66, 32, 49], some (Call.command 1 ⟨2, 0⟩), []⟩] ∧
    ∃ cy, (readSerial P0 sThree [67, 10]).2 = [cy] ∧
      ∀ i h, cy.call ≠ some (Call.command i h) :=
  ⟨(readSerial_registry_capacity P0 [] cmds3 sThree [66, 32, 49] 10 1 [[49]]
      (by decide) rfl rfl (by decide) (by decide) (by decide) (by decide) (by decide)
      (Or.inl rfl) (by decide)).1 (by decide),
    (readSerial_registry_capacity P0 [] cmds3 sThree [67] 10 2 []
      (by decide) rfl rfl (by decide) (by decide) (by decide) (by decide) (by decide)
      (Or.inl rfl) (by decide)).2 (by decide)⟩

/-- Instance of C7: a registration into the full registry changes nothing; one into a
registry with room is stored in the next cell. -/
theorem addCommand_capacity_witness :
    addCommand P0 sThree [68] ⟨4, 0⟩ = sThree ∧
    (addCommand P0 sLED [68] ⟨4, 0⟩).commandList[1]? = some ⟨[68, 0, 0, 0], ⟨4, 0⟩⟩ :=
  ⟨(addCommand_capacity P0 sThree [68] ⟨4, 0⟩).1 (by decide),
    ((addCommand_capacity P0 sLED [68] ⟨4, 0⟩).2.1 (by decide)).2.2 (by decide)⟩

/-- C8 (counterexample): after the line `A B` was dispatched with no handler registered,
a `next()` call outside any handler returns the stale token `B`, not `NULL`, under
either convention of `strtok_r`. -/
theorem next_after_cycle_counterexample :
    (next P0 (readSerial P0 (ctor P0 []) [65, 32, 66, 10]).1).1 = some 2 ∧
    tokenAt (next P0 (readSerial P0 (ctor P0 []) [65, 32, 66, 10]).1).2
      (next P0 (readSerial P0 (ctor P0 []) [65, 32, 66, 10]).1).1 = some [66] ∧
    tokenAt (next P1 (readSerial P1 (ctor P1 []) [65, 32, 66, 10]).1).2
      (next P1 (readSerial P1 (ctor P1 []) [65, 32, 66, 10]).1).1 = some [66] := by
  decide

/-- Instance of C8 as amended: after the line `A 1 2`, whose handler pulls nothing, a
`next()` call outside the handler returns token number 1 of the line. -/
theorem next_after_cycle_witness :
    ∃ cy, (readSerial P0 sThree [65, 32, 49, 32, 50, 10]).2 = [cy] ∧
      tokenAt (next P0 (readSerial P0 sThree [65, 32, 49, 32, 50, 10]).1).2
          (next P0 (readSerial P0 sThree [65, 32, 49, 32, 50, 10]).1).1 =
        (tokens sThree.delim [65, 32, 49, 32, 50])[cy.nexts.length + 1]? :=
  next_after_cycle P0 sThree [65, 32, 49, 32, 50] 10
    (by decide) (by decide) (by decide) (Or.inl rfl)

/-- Instance of C9: a carriage return after `LED 1` leaves the empty string in the
buffer. -/
theorem readByte_terminator_resets_witness :
    (readByte P0 (readSerial P0 sLED [76, 69, 68, 32, 49]).1 13).1.bufPos = 0 ∧
    (readByte P0 (readSerial P0 sLED [76, 69, 68, 32, 49]).1 13).1.buffer[0]? = some 0 ∧
    cstr (readByte P0 (readSerial P0 sLED [76, 69, 68, 32, 49]).1 13).1.buffer = [] :=
  readByte_terminator_resets P0 (readSerial P0 sLED [76, 69, 68, 32, 49]).1 13
    (by decide) (Or.inr rfl)

/-- Instance of C10: of ten letters fed into a buffer of eight, the first eight are kept
and dispatched. -/
theorem readSerial_buffer_full_drop_witness :
    (readSerial P0 sBoth [65, 66, 67, 68, 69, 70, 71, 72, 73, 74]).2 = [] ∧
    cstr (readSerial P0 sBoth [65, 66, 67, 68, 69, 70, 71, 72, 73, 74]).1.buffer =
      [65, 66, 67, 68, 69, 70, 71, 72] ∧
    (readSerial P0 sBoth [65, 66, 67, 68, 69, 70, 71, 72, 73, 74]).1.bufPos = 8 ∧
    (8 ≤ 10 →
      readByte P0 (readSerial P0 sBoth [65, 66, 67, 68, 69, 70, 71, 72, 73, 74]).1 75 =
        ((readSerial P0 sBoth [65, 66, 67, 68, 69, 70, 71, 72, 73, 74]).1, [])) ∧
    (∃ cy, (readSerial P0 sBoth [65, 66, 67, 68, 69, 70, 71, 72, 73, 74, 10]).2 = [cy] ∧
      cy.received = [65, 66, 67, 68, 69, 70, 71, 72]) :=
  readSerial_buffer_full_drop P0 sBoth [65, 66, 67, 68, 69, 70, 71, 72, 73, 74] 75 10
    (by decide) (by decide) (by decide) (Or.inl rfl)

/-- Instance of C11: backspace after `AB` leaves `A` in the buffer, and the input `AB`,
backspace, `C`, newline dispatches the line `AC`. -/
theorem readByte_backspace_removes_last_witness :
    Holds P0 (readByte P0 (readSerial P0 sBoth [65, 66]).1 8).1 [65] ∧
    ∃ cy, (readSerial P0 sBoth [65, 66, 8, 67, 10]).2 = [cy] ∧ cy.received = [65, 67] :=
  ⟨(readByte_backspace_removes_last P0 (readSerial P0 sBoth [65, 66]).1 [65, 66] 8
      (by decide) (Or.inl rfl) (by decide)).2.1,
    (readByte_backspace_removes_last P0 sBoth [] 8
      (by decide) (Or.inl rfl) (by decide)).2.2.2.2 [65] 66 [67] 10 rfl
      (by decide) (by decide) (Or.inl rfl)⟩

/-- Instance of C12: with no handler registered, the line `FOO` and the empty line each
run a cycle that calls nothing. -/
theorem readSerial_silent_drop_witness :
    ((readSerial P0 (ctor P0 []) [70, 79, 79, 10]).2 = [⟨[70, 79, 79], none, []⟩] ∧
      Ready P0 (readSerial P0 (ctor P0 []) [70, 79, 79, 10]).1) ∧
    ((readSerial P0 (ctor P0 []) [32, 13]).2 = [⟨[32], none, []⟩] ∧
      Ready P0 (readSerial P0 (ctor P0 []) [32, 13]).1) :=
  ⟨readSerial_silent_drop P0 (ctor P0 []) [70, 79, 79] 10
      (by decide) (by decide) (by decide) (Or.inl rfl)
      (Or.inl ⟨[70, 79, 79], [], by decide, by decide, rfl⟩),
    readSerial_silent_drop P0 (ctor P0 []) [32] 13
      (by decide) (by decide) (by decide) (Or.inr rfl)
      (Or.inr ⟨by decide, rfl⟩)⟩

/-- Instance of C13: with names of 4 bytes, the entry stored for `LEDXYZ` is compared
with the token `LEDXQ` on the bytes `LEDX` only. -/
theorem lookup_bounded_comparison_witness :
    strncmp [76, 69, 68, 88, 81, 0, 7] [76, 69, 68, 88] 4 = 0 ↔
      (cstr [76, 69, 68, 88, 81, 0, 7]).take 4 = (cstr [76, 69, 68, 88, 89, 90]).take 4 :=
  (lookup_bounded_comparison P0 (ctor P0 []) [76, 69, 68, 88, 89, 90]
    [76, 69, 68, 88, 81, 0, 7] ⟨1, 0⟩ ⟨[76, 69, 68, 88], ⟨1, 0⟩⟩
    (by decide) (by decide)).2.1

/-- Instance of C14: with `B`, `A`, `A` registered, the line `A 1` calls the handler of
the first `A`, at index 1. -/
theorem readSerial_first_match_wins_witness :
    (readSerial P2 sDup [65, 32, 49, 10]).2 =
      [⟨[65, 32, 49], some (Call.command 1 ⟨2, 1⟩), [some [49]]⟩] :=
  readSerial_first_match_wins P2 sDup [65, 32, 49] 10 [65] [[49]] 1
    (by decide) (by decide) (by decide) (Or.inl rfl) (by decide) (by decide) (by decide)
    (fun j _ hjk => by
      have h0 : j = 0 := by omega
      subst h0
      have key : strncmp [65]
          ((sDup.commandList.take sDup.commandCount).get ⟨0, by decide⟩).command
          P2.SERIALCOMMAND_MAXCOMMANDLENGTH ≠ 0 := by decide
      exact key)

/-- Instance of C15: with `;` and backspace as terminators and `AB` in the buffer, the
byte `;` dispatches the line `AB`, and the byte 8 leaves `bufPos = 0`. -/
theorem readByte_terminator_priority_witness :
    (∃ cy, (readByte P0 sSemi 59).2 = [cy] ∧ cy.received = [65, 66]) ∧
    (readByte P0 sSemi 8).1.bufPos = 0 :=
  ⟨(readByte_terminator_priority P0 sSemi 59 (Or.inl rfl)).1,
    (readByte_terminator_priority P0 sSemi 8 (Or.inr rfl)).2.1⟩

/-- Instance of C16: the bell byte 7 leaves the object with `LED` registered as it is. -/
theorem readByte_ignores_other_witness : readByte P0 sLED 7 = (sLED, []) :=
  readByte_ignores_other P0 sLED 7 (by decide) (by decide) (by decide) (by decide)
    (by decide)

/-- Instance of C18: after the lines `A B` and `XYZ 1 2`, whose stale bytes and cursors
differ, the input `C`, newline, newline runs the same cycles. -/
theorem readSerial_no_leakage_witness :
    (readSerial P0 sAfterAB [67, 10, 10]).2 = (readSerial P0 sAfterXYZ [67, 10, 10]).2 :=
  readSerial_no_leakage P0 sAfterAB sAfterXYZ [67, 10, 10]
    (by decide) (by decide) (by decide)

/-- Instance of C1: with `LED` registered, the bound holds after `LED 1` and a newline,
a cycle whose handler called `next()` twice. -/
theorem readSerial_buffer_bound_witness :
    (readSerial P0 sLED (List.take 6 [76, 69, 68, 32, 49, 10, 65, 66])).1.bufPos ≤ 8 ∧
    (readSerial P0 sLED (List.take 6 [76, 69, 68, 32, 49, 10, 65, 66])).1.buffer.length =
      9 ∧
    (readSerial P0 sLED (List.take 6 [76, 69, 68, 32, 49, 10, 65, 66])).1.buffer[
      (readSerial P0 sLED (List.take 6 [76, 69, 68, 32, 49, 10, 65, 66])).1.bufPos]? =
        some 0 :=
  (readSerial_buffer_bound P0 sLED [76, 69, 68, 32, 49, 10, 65, 66] 6 (by decide)).1

/-- Instance of C19: with `LED` registered, after `LED 1`, a newline and `AB` the buffer
holds `AB`, and the line of the cycle that ran the `LED` handler had printable bytes
only. -/
theorem readSerial_line_content_witness :
    cstr (readSerial P0 sLED (List.take 8 [76, 69, 68, 32, 49, 10, 65, 66])).1.buffer =
      [65, 66] ∧
    ∀ cy ∈ (readSerial P0 sLED (List.take 8 [76, 69, 68, 32, 49, 10, 65, 66])).2,
      ∀ c ∈ cy.received, isprint c = true ∧ c ≠ 10 ∧ c ≠ 13 :=
  ⟨(readSerial_line_content P0 sLED [] [76, 69, 68, 32, 49, 10, 65, 66] 8
      (by decide) (by decide)).2.2.2.1,
    (readSerial_line_content P0 sLED [] [76, 69, 68, 32, 49, 10, 65, 66] 8
      (by decide) (by decide)).2.2.2.2.2.1⟩

end SerialCommand
